import Mathlib

/-!
# Verification of the hazelnut core against its specification

Shallow embedding of the hazelnut repository (a directory-watching file
organizer written in Rust) into Lean 4, covering:

* the debounce tracker (`src/watcher/handler.rs`, `EventHandler`),
* the rule engine (`src/rules/engine.rs`, `RuleEngine`),
* the condition matcher (`src/rules/condition.rs`, `Condition::matches`),
* the action executor (`src/rules/action.rs`, `Action::execute`),
* the watcher event loop (`src/watcher/mod.rs`, `Watcher`),
* the daemon SIGHUP reload branch (`src/daemon.rs`, `run_daemon`).

Modelling conventions:

* A filesystem path (`PathBuf`) is a list of components, absolute paths
  assumed; components are ordinary names (no `.` / `..` components).
* Machine integers (`u64`, `usize`) are modelled as `Nat`; none of the
  verified code paths can overflow 64 bits on realistic state sizes, and no
  wrapping arithmetic appears in the source.
* `Instant` timestamps are `Nat` ticks; `Duration` subtraction
  (`Instant::duration_since`, saturating) is `Nat` subtraction.
* Fallible Rust code returning `anyhow::Result` is modelled with `Except`.
* External collaborators (glob/regex compilation, `shell_escape::escape`,
  `chrono` date rendering, `std::fs::canonicalize`, process spawning) are
  taken as function parameters, so every theorem is quantified over their
  behaviour; witnesses instantiate them concretely.
-/

namespace Hazelnut

/-- A filesystem path: the list of components of an absolute path. -/
abbrev FilePath := List String

/-! ## Path helpers (Rust `std::path::Path` accessors)

`file_name` is the last component; `file_stem` / `extension` follow the
Rust rules: the extension is the part after the last `.` of the file name,
and is `None` when there is no `.` or when the only `.` is the leading one
(hidden files such as `.bashrc` have no extension). -/

/-- Rust `Path::file_name`: the final component, `None` for the root. -/
def fileNameOf (p : FilePath) : Option String := p.getLast?

/-- Index (in `s.data`) of the last `.` of `s`, ignoring a dot in leading
position, as Rust does when splitting a file name into stem/extension. -/
def lastDotIdx (s : String) : Option Nat :=
  (List.range s.data.length).foldl
    (fun acc i => if s.data.getD i ' ' = '.' && i ≠ 0 then some i else acc) none

/-- Rust `Path::file_stem` on a path. -/
def fileStemOf (p : FilePath) : Option String :=
  (fileNameOf p).map fun n =>
    match lastDotIdx n with
    | some i => ⟨n.data.take i⟩
    | none => n

/-- Rust `Path::extension` on a path. -/
def extensionOf (p : FilePath) : Option String :=
  (fileNameOf p).bind fun n =>
    match lastDotIdx n with
    | some i => some ⟨n.data.drop (i + 1)⟩
    | none => none

/-- Rust `Path::parent`: drop the final component (`None` at the root). -/
def parentOf (p : FilePath) : Option FilePath :=
  match p with
  | [] => none
  | _ => some p.dropLast

/-- Render a path the way `Path::display` / `to_string_lossy` does for an
absolute path. -/
def pathStr (p : FilePath) : String :=
  "/" ++ String.intercalate "/" p

/-- Byte length of the rendered path (`as_os_str().len()`), used by the
watcher for longest-prefix comparison. -/
def osStrLen (p : FilePath) : Nat := (pathStr p).length

/-! ## Debounce tracker — `EventHandler` (src/watcher/handler.rs)

`recent` models the `IndexMap<PathBuf, Instant>`: an insertion-ordered
association list.  `IndexMap::insert` keeps the position of an existing
key and appends a new one. -/

/-- `MAX_DEBOUNCE_ENTRIES` (src/watcher/handler.rs:9). -/
def MAX_DEBOUNCE_ENTRIES : Nat := 10000

/-- The debounce tracker state (`EventHandler`, src/watcher/handler.rs). -/
structure EventHandler where
  /-- Recent events by path, insertion-ordered (`IndexMap<PathBuf, Instant>`). -/
  recent : List (FilePath × Nat)
  /-- Debounce duration in ticks. -/
  debounce : Nat
  deriving Repr, DecidableEq

/-- `IndexMap::get`. -/
def imGet (m : List (FilePath × Nat)) (p : FilePath) : Option Nat :=
  match m with
  | [] => none
  | e :: rest => if e.1 = p then some e.2 else imGet rest p

/-- `IndexMap::insert`: update in place when the key exists, else append. -/
def imInsert (m : List (FilePath × Nat)) (p : FilePath) (v : Nat) :
    List (FilePath × Nat) :=
  match m with
  | [] => [(p, v)]
  | e :: rest => if e.1 = p then (p, v) :: rest else e :: imInsert rest p v

/-- `EventHandler::cleanup` (src/watcher/handler.rs:56-62): retain entries
seen within `10 * debounce` of `now`. -/
def EventHandler.cleanup (h : EventHandler) (now : Nat) : EventHandler :=
  { h with recent := h.recent.filter fun e => now - e.2 < 10 * h.debounce }

/-- The per-path loop of `EventHandler::should_process`
(src/watcher/handler.rs:34-45): a path is processed when it is absent from
the map or its last-seen timestamp is strictly older than the debounce
window (`duration_since(last) > debounce`); the timestamp is recorded (and
the map updated) only for processed paths, and the map is threaded through
the loop, as `self.recent` is in the Rust source. -/
def spLoop (debounce : Nat) (recent : List (FilePath × Nat))
    (paths : List FilePath) (now : Nat) :
    List FilePath × List (FilePath × Nat) :=
  match paths with
  | [] => ([], recent)
  | p :: rest =>
    let sp : Bool := match imGet recent p with
      | some last => decide (now - last > debounce)
      | none => true
    if sp then
      let res := spLoop debounce (imInsert recent p now) rest now
      (p :: res.1, res.2)
    else
      spLoop debounce recent rest now

/-- `EventHandler::should_process` (src/watcher/handler.rs:30-53): run the
per-path loop, then force a cleanup when the map has grown past
`MAX_DEBOUNCE_ENTRIES`.  The source calls `Instant::now()` once at the top
of `should_process` and again inside the forced `cleanup`; the two calls
are modelled as the same tick `now` (time does not advance inside the
call). -/
def EventHandler.shouldProcess (h : EventHandler) (paths : List FilePath)
    (now : Nat) : List FilePath × EventHandler :=
  let res := spLoop h.debounce h.recent paths now
  if res.2.length > MAX_DEBOUNCE_ENTRIES then
    (res.1, EventHandler.cleanup ⟨res.2, h.debounce⟩ now)
  else
    (res.1, ⟨res.2, h.debounce⟩)

/-! ## Filesystem model

An explicit-state model of the parts of `std::fs` the verified code
touches: a finite map from paths to file entries, plus a set of directory
paths.  `metadata` succeeds for files and directories and fails for
missing paths. -/

/-- Metadata and content of one regular file.  `modified = some s` models
`metadata.modified()` returning `Ok` with `elapsed()` of `s` seconds (an
`elapsed()` error is collapsed to `s = 0`, exactly what the source's
`.map(|d| d.as_secs() / 86400).unwrap_or(0)` does); `modified = none`
models `metadata.modified()` returning `Err`. -/
structure FsFile where
  size : Nat
  modified : Option Nat := some 0
  content : String := ""
  deriving Repr, DecidableEq

/-- Filesystem state: regular files with metadata/content, and directories. -/
structure Fs where
  files : List (FilePath × FsFile)
  dirs : List FilePath
  deriving Repr, DecidableEq

/-- Look up a regular file. -/
def Fs.lookup (fs : Fs) (p : FilePath) : Option FsFile :=
  (fs.files.find? fun e => e.1 = p).map (·.2)

/-- `Path::is_dir` (false for a missing path). -/
def Fs.isDir (fs : Fs) (p : FilePath) : Bool := fs.dirs.contains p

/-- `Path::exists`: true for a file or a directory. -/
def Fs.pathExists (fs : Fs) (p : FilePath) : Bool :=
  (fs.lookup p).isSome || fs.isDir p

/-- `Path::metadata`: succeeds for files and directories, fails (with
`NotFound`) for missing paths.  Directory metadata carries a
platform-specific size which no verified claim observes; it is modelled as
zero. -/
def Fs.metadata (fs : Fs) (p : FilePath) : Option FsFile :=
  match fs.lookup p with
  | some f => some f
  | none => if fs.isDir p then some ⟨0, some 0, ""⟩ else none

/-! ## Condition matcher (src/rules/condition.rs)

Glob and regex compilation are external crates (`glob::Pattern::new`,
`Regex::new`); they are taken as parameters `gc`/`rc` returning either a
compile error or a pure matcher on the file name.  The source's
thread-local pattern caches are semantically transparent for a single
`matches` call (a cached compile of the same pattern string yields the
same matcher), so they do not appear in the model. -/

/-- The `Condition` struct (src/rules/condition.rs:19-60); `none` / `[]`
means the predicate is absent. -/
structure Condition where
  extension : Option String := none
  extensions : List String := []
  name_matches : Option String := none
  name_regex : Option String := none
  size_greater_than : Option Nat := none
  size_less_than : Option Nat := none
  age_days_greater_than : Option Nat := none
  age_days_less_than : Option Nat := none
  is_directory : Option Bool := none
  is_hidden : Option Bool := none
  deriving Repr, DecidableEq

/-- Rust `str::starts_with('.')` on a file name: the first character is a
dot.  (Spelled on the character list so that it evaluates by `rfl`.) -/
def startsWithDot (s : String) : Bool :=
  match s.data with
  | [] => false
  | c :: _ => c = '.'

/-- Rust `str::to_ascii_lowercase` (ASCII-only, like Lean's `Char.toLower`). -/
def toLowerAscii (s : String) : String := ⟨s.data.map Char.toLower⟩

/-- `check_extension` (src/rules/condition.rs:157-162):
case-insensitive comparison of the path's extension. -/
def checkExtension (p : FilePath) (ext : String) : Bool :=
  match extensionOf p with
  | some e => toLowerAscii e = toLowerAscii ext
  | none => false

/-- `check_glob` (src/rules/condition.rs:164-180): compile the pattern
(`gc`), then match the file name; a compile failure is an error. -/
def checkGlob (gc : String → Except String (String → Bool)) (p : FilePath)
    (pattern : String) : Except String Bool :=
  (gc pattern).map fun m => m ((fileNameOf p).getD "")

/-- `check_regex` (src/rules/condition.rs:182-198). -/
def checkRegex (rc : String → Except String (String → Bool)) (p : FilePath)
    (pattern : String) : Except String Bool :=
  (rc pattern).map fun m => m ((fileNameOf p).getD "")

/-- The error-free tail of `Condition::matches`
(src/rules/condition.rs:94-153): the size/age block (one metadata read,
a missing file or failing `modified()` is a non-match), the
`is_directory` check and the `is_hidden` check.  The source's early
`return Ok(false)` chain is an effect-free conjunction, rendered here as
`&&` in the source's evaluation order. -/
def metaTailChecks (c : Condition) (fs : Fs) (p : FilePath) : Bool :=
  (if c.size_greater_than.isSome || c.size_less_than.isSome ||
      c.age_days_greater_than.isSome || c.age_days_less_than.isSome then
    match fs.metadata p with
    | none => false
    | some md =>
      (c.size_greater_than.all fun min => decide (md.size > min)) &&
      (c.size_less_than.all fun max => decide (md.size < max)) &&
      (if c.age_days_greater_than.isSome || c.age_days_less_than.isSome then
        match md.modified with
        | some secs =>
          (c.age_days_greater_than.all fun minD => decide (secs / 86400 > minD)) &&
          (c.age_days_less_than.all fun maxD => decide (secs / 86400 < maxD))
        | none => false
      else true)
  else true) &&
  (c.is_directory.all fun b => fs.isDir p == b) &&
  (c.is_hidden.all fun b => startsWithDot ((fileNameOf p).getD "") == b)

/-- `Condition::matches` (src/rules/condition.rs:64-154): short-circuit
left-to-right in predicate declaration order; the only error sources are
glob/regex pattern compilation. -/
def Condition.matches (gc rc : String → Except String (String → Bool))
    (c : Condition) (fs : Fs) (p : FilePath) : Except String Bool :=
  if c.extension.any fun ext => ! checkExtension p ext then .ok false
  else if ! c.extensions.isEmpty &&
          ! (c.extensions.any fun ext => checkExtension p ext) then .ok false
  else
    (match c.name_matches with
     | some pattern => checkGlob gc p pattern
     | none => .ok true).bind fun globOk =>
    if ! globOk then .ok false
    else
      (match c.name_regex with
       | some pattern => checkRegex rc p pattern
       | none => .ok true).bind fun regexOk =>
      if ! regexOk then .ok false
      else .ok (metaTailChecks c fs p)

/-! ## Rules and the rule engine (src/rules/mod.rs, src/rules/engine.rs) -/

/-- The `Action` enum (src/rules/action.rs:11-63). -/
inductive Action where
  | move (destination : FilePath) (create_destination : Bool) (overwrite : Bool)
  | copy (destination : FilePath) (create_destination : Bool) (overwrite : Bool)
  | rename (pattern : String)
  | trash
  | delete
  | run (command : String) (args : List String)
  | archive (destination : Option FilePath) (delete_original : Bool)
  | nothing
  deriving Repr, DecidableEq

/-- The `Rule` struct. -/
structure Rule where
  name : String
  enabled : Bool
  condition : Condition
  action : Action
  stop_processing : Bool := false
  deriving Repr, DecidableEq

/-- `RuleEngine::evaluate` (src/rules/engine.rs:21-40): iterate rules in
declaration order, skip disabled rules, return the first enabled rule
whose condition matches; a condition error propagates. -/
def evaluate (gc rc : String → Except String (String → Bool)) (fs : Fs)
    (rules : List Rule) (p : FilePath) : Except String (Option Action) :=
  match rules with
  | [] => .ok none
  | r :: rest =>
    if r.enabled then
      match r.condition.matches gc rc fs p with
      | .error e => .error e
      | .ok true => .ok (some r.action)
      | .ok false => evaluate gc rc fs rest p
    else evaluate gc rc fs rest p

/-- The filtered loop of `RuleEngine::evaluate_filtered`
(src/rules/engine.rs:55-67): additionally skip rules whose name is not in
the allowed list. -/
def evalFilteredLoop (gc rc : String → Except String (String → Bool))
    (fs : Fs) (names : List String) (rules : List Rule) (p : FilePath) :
    Except String (Option Action) :=
  match rules with
  | [] => .ok none
  | r :: rest =>
    if r.enabled then
      if names.contains r.name then
        match r.condition.matches gc rc fs p with
        | .error e => .error e
        | .ok true => .ok (some r.action)
        | .ok false => evalFilteredLoop gc rc fs names rest p
      else evalFilteredLoop gc rc fs names rest p
    else evalFilteredLoop gc rc fs names rest p

/-- `RuleEngine::evaluate_filtered` (src/rules/engine.rs:43-72): with a
non-empty filter run the filtered loop; with `None` or an empty filter
fall through to `evaluate`. -/
def evaluateFiltered (gc rc : String → Except String (String → Bool))
    (fs : Fs) (rules : List Rule) (p : FilePath)
    (allowed : Option (List String)) : Except String (Option Action) :=
  match allowed with
  | some names =>
    if names.isEmpty then evaluate gc rc fs rules p
    else evalFilteredLoop gc rc fs names rules p
  | none => evaluate gc rc fs rules p

/-! ## Kernel-reducible string primitives

Rust's `str::replace`, `str::contains` and `str::split_whitespace` (and
Lean's own `String.replace`/`String.split`) are loop-based; the model
re-implements them by structural recursion on the character list so that
concrete instances evaluate inside the kernel.  Semantics follow Rust:
`replace` substitutes every non-overlapping occurrence left-to-right,
`split_whitespace` splits on whitespace runs and drops empty tokens. -/

/-- One pass of `str::replace`: at each position, if the pattern is a
prefix, emit the replacement and skip the match.  `fuel ≥ length` makes
the recursion total without changing the result. -/
def strReplaceAux (pat rep : List Char) : Nat → List Char → List Char
  | 0, cs => cs
  | _ + 1, [] => []
  | fuel + 1, c :: rest =>
    if pat.isPrefixOf (c :: rest) then
      rep ++ strReplaceAux pat rep fuel ((c :: rest).drop pat.length)
    else c :: strReplaceAux pat rep fuel rest

/-- `str::replace` for a non-empty literal pattern (every pattern the
source substitutes is a non-empty placeholder literal). -/
def strReplace (s pat rep : String) : String :=
  if pat.isEmpty then s
  else ⟨strReplaceAux pat.data rep.data s.data.length s.data⟩

/-- Substring occurrence test (`str::contains(&str)`). -/
def containsSubAux (sub : List Char) : List Char → Bool
  | [] => false
  | c :: rest => sub.isPrefixOf (c :: rest) || containsSubAux sub rest

/-- `str::contains(&str)` for a non-empty literal needle. -/
def containsSub (s sub : String) : Bool := containsSubAux sub.data s.data

/-- `str::contains(char)`. -/
def strContainsChar (s : String) (c : Char) : Bool := s.data.contains c

/-- `str::split_whitespace`: split on whitespace runs, dropping empties.
`acc` holds the current token reversed. -/
def splitWsAux : List Char → List Char → List String
  | [], acc => if acc.isEmpty then [] else [acc.reverse.asString]
  | c :: rest, acc =>
    if c.isWhitespace then
      if acc.isEmpty then splitWsAux rest []
      else acc.reverse.asString :: splitWsAux rest []
    else splitWsAux rest (c :: acc)

/-- `str::split_whitespace` on a string. -/
def splitWhitespace (s : String) : List String := splitWsAux s.data []

/-! ## Placeholder expansion (src/rules/action.rs:344-431)

`chrono`'s `now.format(F).to_string()` is an external clock collaborator,
taken as the parameter `fmt : String → String` (from a format string to
its rendering at the current instant).  `shell_escape::escape` is the
parameter `escape`. -/

/-- One left-to-right pass of the `\x7bdate:([^}]+)\x7d` `replace_all`
(src/rules/action.rs:376-382): at each position, when the text starts
with `{date:` followed by a non-empty run of non-`}` characters and a
`}`, replace the whole match by the rendering of the captured format.
`fuel` bounds the recursion; each step consumes at least one character,
so `fuel = length` is exact. -/
def replDateAux (fmt : String → String) : Nat → List Char → List Char
  | 0, cs => cs
  | _ + 1, [] => []
  | fuel + 1, c :: rest =>
    if ("\x7bdate:".data).isPrefixOf (c :: rest) then
      let after := (c :: rest).drop 6
      let body := after.takeWhile fun ch => ch ≠ '}'
      match after.drop body.length, body with
      | '}' :: tail, _ :: _ =>
        (fmt ⟨body⟩).data ++ replDateAux fmt fuel tail
      | _, _ => c :: replDateAux fmt fuel rest
    else c :: replDateAux fmt fuel rest

/-- `replace_all` of the custom date-format regex over a string. -/
def replaceDateFmt (fmt : String → String) (s : String) : String :=
  ⟨replDateAux fmt s.data.length s.data⟩

/-- `expand_pattern` (src/rules/action.rs:344-385): substitute
`{path} {dir} {name} {filename} {ext} {date} {datetime}` and
`\x7bdate:FORMAT\x7d`, in the source's order, each substitution replacing
every occurrence.  The source returns `Result` only because of the static
date-regex compilation, which cannot fail; the model is total. -/
def expandPattern (fmt : String → String) (pattern : String)
    (p : FilePath) : String :=
  let result := strReplace pattern "{path}" (pathStr p)
  let result := match parentOf p with
    | some par => strReplace result "{dir}" (pathStr par)
    | none => result
  let result := match fileStemOf p with
    | some stem => strReplace result "{name}" stem
    | none => result
  let result := match fileNameOf p with
    | some fn => strReplace result "{filename}" fn
    | none => result
  let result := match extensionOf p with
    | some e => strReplace result "{ext}" e
    | none => result
  let result := strReplace result "{date}" (fmt "%Y-%m-%d")
  let result := strReplace result "{datetime}" (fmt "%Y-%m-%d_%H-%M-%S")
  replaceDateFmt fmt result

/-- `expand_pattern_shell_escaped` (src/rules/action.rs:388-431):
identical to `expand_pattern` except that the five file-derived
placeholder values are passed through `shell_escape::escape`; the
`{date}`, `{datetime}` and `\x7bdate:FORMAT\x7d` renderings are
substituted without escaping. -/
def expandPatternShellEscaped (escape fmt : String → String)
    (pattern : String) (p : FilePath) : String :=
  let result := strReplace pattern "{path}" (escape (pathStr p))
  let result := match parentOf p with
    | some par => strReplace result "{dir}" (escape (pathStr par))
    | none => result
  let result := match fileStemOf p with
    | some stem => strReplace result "{name}" (escape stem)
    | none => result
  let result := match fileNameOf p with
    | some fn => strReplace result "{filename}" (escape fn)
    | none => result
  let result := match extensionOf p with
    | some e => strReplace result "{ext}" (escape e)
    | none => result
  let result := strReplace result "{date}" (fmt "%Y-%m-%d")
  let result := strReplace result "{datetime}" (fmt "%Y-%m-%d_%H-%M-%S")
  replaceDateFmt fmt result

/-! ## The Run arm's execution plan (src/rules/action.rs:188-260) -/

/-- How the Run arm invokes the child: through `sh -c` (resp. `cmd /C`)
with a single expanded command string, or directly with a program and an
argument vector. -/
inductive ExecPlan where
  | shell (shellCmd : String)
  | direct (program : String) (args : List String)
  deriving Repr, DecidableEq

/-- The shell-operator test of the Run arm (src/rules/action.rs:190-195). -/
def hasShellOperators (command : String) : Bool :=
  containsSub command "&&" || containsSub command "||" ||
  strContainsChar command ';' || strContainsChar command '|' ||
  strContainsChar command '>' || strContainsChar command '<'

/-- The command-construction logic of the Run arm
(src/rules/action.rs:197-252): shell execution iff the command contains a
shell operator and the explicit argument list is empty; otherwise direct
execution, splitting the command on whitespace when it contains a space
and no explicit arguments were given (those split tokens are passed as
arguments verbatim), and expanding placeholders in each explicit
argument.  The source indexes `parts[0]`, which would panic on an
all-whitespace command; that unreachable-in-practice case is modelled as
program `""`. -/
def runPlan (escape fmt : String → String) (command : String)
    (args : List String) (p : FilePath) : ExecPlan :=
  if hasShellOperators command && args.isEmpty then
    .shell (expandPatternShellEscaped escape fmt command p)
  else
    let pair : String × List String :=
      if args.isEmpty && strContainsChar command ' ' then
        match splitWhitespace command with
        | p0 :: rest => (p0, rest)
        | [] => ("", [])
      else (command, [])
    .direct pair.1 (pair.2 ++ args.map fun a => expandPattern fmt a p)

/-! ## Action executor (src/rules/action.rs:69-335) -/

/-- Errors of the executor.  `alreadyExists` is the
`"Destination exists and overwrite is false"` bail; `notFound` is an io
error of kind `NotFound` (the only kind the watcher swallows, via
`downcast_ref`); `isDirectory` is the io error `remove_file` returns on a
directory; `commandFailed` is the non-zero-exit bail of the Run arm. -/
inductive ActionErr where
  | notFound
  | alreadyExists
  | noFileName
  | isDirectory
  | commandFailed (status : Nat)
  | spawnFailed
  | ioOther
  deriving Repr, DecidableEq

/-- External collaborators of the executor and watcher, as one record of
parameters: path expansion (`crate::expand_path`: `~` and `$VAR`),
whether an OS `rename` succeeds (false models the cross-device `EXDEV`
failure), whether an OS `copy` of an existing source succeeds, process
spawning (exit status, `none` = spawn failure), `shell_escape::escape`,
`chrono` rendering, the trash directory, and `std::fs::canonicalize`
with its fallback to the input path. -/
structure Env where
  expandPathFn : FilePath → FilePath
  renameOk : FilePath → FilePath → Bool
  copyOk : Bool
  spawn : ExecPlan → Option Nat
  escape : String → String
  fmt : String → String
  trashDir : FilePath
  canon : FilePath → FilePath

/-- An `Env` whose collaborators all behave trivially; used to instantiate
theorems on concrete inputs. -/
def defaultEnv : Env :=
  ⟨id, fun _ _ => true, true, fun _ => some 0, id, id, ["trash"], id⟩

/-- Replace a file binding (create or overwrite). -/
def Fs.setFile (fs : Fs) (p : FilePath) (f : FsFile) : Fs :=
  { fs with files := (p, f) :: fs.files.filter fun e => !decide (e.1 = p) }

/-- Remove a file binding. -/
def Fs.removeEntry (fs : Fs) (p : FilePath) : Fs :=
  { fs with files := fs.files.filter fun e => !decide (e.1 = p) }

/-- `std::fs::create_dir_all`: fails when a regular file occupies the
path; otherwise records the directory.  (Intermediate ancestors are not
tracked separately; no verified claim observes them.) -/
def fsCreateDirAll (fs : Fs) (d : FilePath) : Except ActionErr Fs :=
  if (fs.lookup d).isSome then .error .ioOther
  else .ok { fs with dirs := if fs.dirs.contains d then fs.dirs else d :: fs.dirs }

/-- Rewrite `p` under a directory move from `src` to `dst`. -/
def replaceUnder (src dst p : FilePath) : FilePath :=
  if src.isPrefixOf p then dst ++ p.drop src.length else p

/-- `std::fs::rename`: atomically move a file (overwriting an existing
destination file, as POSIX `rename` does) or a directory together with
everything under it; `NotFound` when the source is missing. -/
def fsRename (fs : Fs) (src dst : FilePath) : Except ActionErr Fs :=
  match fs.lookup src with
  | some f => .ok ((fs.removeEntry src).setFile dst f)
  | none =>
    if fs.isDir src then
      .ok { files := fs.files.map fun e => (replaceUnder src dst e.1, e.2),
            dirs := fs.dirs.map fun d => replaceUnder src dst d }
    else .error .notFound

/-- `std::fs::copy`: duplicate the source's content to the destination
(overwriting it); fails with `NotFound` for a missing source, with
another io error for a directory source or an OS-level failure
(`env.copyOk = false`). -/
def fsCopy (env : Env) (fs : Fs) (src dst : FilePath) :
    Except ActionErr Fs :=
  match fs.lookup src with
  | some f => if env.copyOk then .ok (fs.setFile dst f) else .error .ioOther
  | none => if fs.isDir src then .error .ioOther else .error .notFound

/-- `std::fs::remove_file`: plain-file removal; fails on a directory
(`EISDIR`-class error) and on a missing path (`NotFound`). -/
def fsRemoveFile (fs : Fs) (p : FilePath) : Except ActionErr Fs :=
  if (fs.lookup p).isSome then .ok (fs.removeEntry p)
  else if fs.isDir p then .error .isDirectory
  else .error .notFound

/-- `std::fs::remove_dir_all`: remove a directory and everything under it. -/
def fsRemoveDirAll (fs : Fs) (p : FilePath) : Except ActionErr Fs :=
  if fs.isDir p then
    .ok { files := fs.files.filter fun e => !(p.isPrefixOf e.1),
          dirs := fs.dirs.filter fun d => !(p.isPrefixOf d) }
  else .error .notFound

/-- The Move arm (src/rules/action.rs:73-110), returning its result
together with the trace of filesystem states: the initial state, then the
state after every primitive filesystem operation, so invariants can be
stated about every point of its execution.  Steps: expand the
destination, optionally `create_dir_all`, reject an existing destination
file without `overwrite`, attempt an atomic `rename`, and on any rename
failure fall back to `copy` then `remove_file` of the source. -/
def moveTrace (env : Env) (destination : FilePath)
    (create_destination overwrite : Bool) (p : FilePath) (fs : Fs) :
    Except ActionErr Unit × List Fs :=
  let dest := env.expandPathFn destination
  match (if create_destination then fsCreateDirAll fs dest else .ok fs) with
  | .error e => (.error e, [fs])
  | .ok fs1 =>
    match fileNameOf p with
    | none => (.error .noFileName, [fs, fs1])
    | some filename =>
      let destPath := dest ++ [filename]
      if fs1.pathExists destPath && !overwrite then
        (.error .alreadyExists, [fs, fs1])
      else
        match (if env.renameOk p destPath then fsRename fs1 p destPath
               else .error .ioOther) with
        | .ok fs2 => (.ok (), [fs, fs1, fs2])
        | .error _ =>
          match fsCopy env fs1 p destPath with
          | .error e => (.error e, [fs, fs1])
          | .ok fs2 =>
            match fsRemoveFile fs2 p with
            | .error e => (.error e, [fs, fs1, fs2])
            | .ok fs3 => (.ok (), [fs, fs1, fs2, fs3])

/-- The Copy arm (src/rules/action.rs:112-135): as Move without the
rename/delete, and with no cross-device fallback. -/
def copyExec (env : Env) (destination : FilePath)
    (create_destination overwrite : Bool) (p : FilePath) (fs : Fs) :
    Except ActionErr Unit × Fs :=
  let dest := env.expandPathFn destination
  match (if create_destination then fsCreateDirAll fs dest else .ok fs) with
  | .error e => (.error e, fs)
  | .ok fs1 =>
    match fileNameOf p with
    | none => (.error .noFileName, fs1)
    | some filename =>
      let destPath := dest ++ [filename]
      if fs1.pathExists destPath && !overwrite then (.error .alreadyExists, fs1)
      else
        match fsCopy env fs1 p destPath with
        | .error e => (.error e, fs1)
        | .ok fs2 => (.ok (), fs2)

/-- The Rename arm (src/rules/action.rs:137-143): expand the name pattern
and rename within the parent directory (the source's `unwrap_or(".")`
parent default only arises for a rootless path). -/
def renameExec (env : Env) (pattern : String) (p : FilePath) (fs : Fs) :
    Except ActionErr Unit × Fs :=
  let newName := expandPattern env.fmt pattern p
  let newPath := ((parentOf p).getD []) ++ [newName]
  match (if env.renameOk p newPath then fsRename fs p newPath
         else .error .ioOther) with
  | .error e => (.error e, fs)
  | .ok fs2 => (.ok (), fs2)

/-- Candidate trash name with numeric suffix `k`
(src/rules/action.rs:161-170): `stem_k.ext`. -/
def trashCandidate (trashDir : FilePath) (p : FilePath) (k : Nat) : FilePath :=
  let stem := (fileStemOf p).getD ""
  let extSuffix := match extensionOf p with
    | some e => "." ++ e
    | none => ""
  trashDir ++ [stem ++ "_" ++ toString k ++ extSuffix]

/-- The Trash arm (src/rules/action.rs:145-177): move into the trash
directory, disambiguating collisions with the first free numeric suffix.
The source searches suffixes in an unbounded loop; a finite filesystem
always has a free suffix among the first `|files| + |dirs| + 2`, so the
search is bounded by that (the `none` fallback is unreachable). -/
def trashExec (env : Env) (p : FilePath) (fs : Fs) :
    Except ActionErr Unit × Fs :=
  match fsCreateDirAll fs env.trashDir with
  | .error e => (.error e, fs)
  | .ok fs1 =>
    match fileNameOf p with
    | none => (.error .noFileName, fs1)
    | some filename =>
      let tp0 := env.trashDir ++ [filename]
      let chosen : Option FilePath :=
        if fs1.pathExists tp0 then
          (((List.range (fs1.files.length + fs1.dirs.length + 2)).map (· + 1)).find?
            fun k => !(fs1.pathExists (trashCandidate env.trashDir p k))).map
            (trashCandidate env.trashDir p)
        else some tp0
      match chosen with
      | none => (.error .ioOther, fs1)
      | some trashPath =>
        match (if env.renameOk p trashPath then fsRename fs1 p trashPath
               else .error .ioOther) with
        | .ok fs2 => (.ok (), fs2)
        | .error _ =>
          match fsCopy env fs1 p trashPath with
          | .error e => (.error e, fs1)
          | .ok fs2 =>
            match fsRemoveFile fs2 p with
            | .error e => (.error e, fs2)
            | .ok fs3 => (.ok (), fs3)

/-- Interpretation of the child process status in the Run arm
(src/rules/action.rs:216-228, 249-258): a spawn failure is a context
error, a non-zero exit status is the `"Command failed with status"` bail;
there is no retry — the command is spawned exactly once per execution. -/
def runStatusResult (status : Option Nat) : Except ActionErr Unit :=
  match status with
  | none => .error .spawnFailed
  | some 0 => .ok ()
  | some s => .error (.commandFailed s)

/-- The bytes of the zip the Archive arm writes
(src/rules/action.rs:277-320): for a directory, recursively all files
under it (relative paths with directory entries); for a file, just that
file; `File::open` of a missing source is a `NotFound` error.  The exact
byte encoding is opaque to every claim; entries and contents are
concatenated. -/
def zipContent (fs : Fs) (p : FilePath) : Except ActionErr String :=
  if fs.isDir p then
    .ok ("zip:" ++ String.intercalate ";"
      ((fs.files.filter fun e => p.isPrefixOf e.1).map
        fun e => pathStr e.1 ++ "=" ++ e.2.content))
  else
    match fs.lookup p with
    | some f => .ok ("zip:" ++ f.content)
    | none => .error .notFound

/-- The Archive arm (src/rules/action.rs:262-327): create
`<dest>/<stem>.zip` (destination defaulting to the source's parent),
write the zip, and only then, when `delete_original` is set, attempt a
plain `remove_file` of the original — which fails on a directory. -/
def archiveExec (env : Env) (destination : Option FilePath)
    (delete_original : Bool) (p : FilePath) (fs : Fs) :
    Except ActionErr Unit × Fs :=
  let dest := match destination with
    | some d => env.expandPathFn d
    | none => (parentOf p).getD []
  match fileStemOf p with
  | none => (.error .noFileName, fs)
  | some stem =>
    let archivePath := dest ++ [stem ++ ".zip"]
    if fs.isDir archivePath then (.error .ioOther, fs)
    else
      let fs1 := fs.setFile archivePath ⟨0, some 0, ""⟩
      match zipContent fs1 p with
      | .error e => (.error e, fs1)
      | .ok content =>
        let fs2 := fs1.setFile archivePath ⟨content.length, some 0, content⟩
        if delete_original then
          match fsRemoveFile fs2 p with
          | .error e => (.error e, fs2)
          | .ok fs3 => (.ok (), fs3)
        else (.ok (), fs2)

/-- `Action::execute` (src/rules/action.rs:71-335): one exhaustive
dispatch over the action variants, returning the result and the final
filesystem state. -/
def Action.execute (env : Env) (a : Action) (p : FilePath) (fs : Fs) :
    Except ActionErr Unit × Fs :=
  match a with
  | .move dest cd ow =>
    let r := moveTrace env dest cd ow p fs
    (r.1, r.2.getLastD fs)
  | .copy dest cd ow => copyExec env dest cd ow p fs
  | .rename pattern => renameExec env pattern p fs
  | .trash => trashExec env p fs
  | .delete =>
    match (if fs.isDir p then fsRemoveDirAll fs p else fsRemoveFile fs p) with
    | .error e => (.error e, fs)
    | .ok fs2 => (.ok (), fs2)
  | .run command args =>
    (runStatusResult (env.spawn (runPlan env.escape env.fmt command args p)), fs)
  | .archive dst delOrig => archiveExec env dst delOrig p fs
  | .nothing => (.ok (), fs)

/-- An evaluation/execution error as the watcher sees it: either a
condition-evaluation error (pattern compilation) or an executor error.
Only `.act .notFound` satisfies the watcher's
`downcast_ref::<io::Error>() … kind() == NotFound` test. -/
inductive ProcError where
  | cond (msg : String)
  | act (e : ActionErr)
  deriving Repr, DecidableEq

/-- The watcher's vanished-file test (src/watcher/mod.rs:144-146). -/
def ProcError.isNotFound : ProcError → Bool
  | .act .notFound => true
  | _ => false

/-- `RuleEngine::process_filtered` (src/rules/engine.rs:75-81): evaluate
with the filter, execute the matching action, report whether a rule fired. -/
def processFiltered (gc rc : String → Except String (String → Bool))
    (env : Env) (rules : List Rule) (p : FilePath)
    (allowed : Option (List String)) (fs : Fs) :
    Except ProcError Bool × Fs :=
  match evaluateFiltered gc rc fs rules p allowed with
  | .error e => (.error (.cond e), fs)
  | .ok none => (.ok false, fs)
  | .ok (some a) =>
    match Action.execute env a p fs with
    | (.ok _, fs2) => (.ok true, fs2)
    | (.error e, fs2) => (.error (.act e), fs2)

/-! ## Watcher (src/watcher/mod.rs) -/

/-- Generic association-list get (`HashMap::get`). -/
def alGet {α : Type} (m : List (FilePath × α)) (k : FilePath) : Option α :=
  match m with
  | [] => none
  | e :: rest => if e.1 = k then some e.2 else alGet rest k

/-- Generic association-list insert (`HashMap::insert`). -/
def alInsert {α : Type} (m : List (FilePath × α)) (k : FilePath) (v : α) :
    List (FilePath × α) :=
  match m with
  | [] => [(k, v)]
  | e :: rest => if e.1 = k then (k, v) :: rest else e :: alInsert rest k v

/-- The `Watcher` struct (src/watcher/mod.rs:20-30).  The OS notification
backend and the event channel live outside the model (events arrive as
explicit inputs to `processPolledEvents`); `files_processed` is the shared
atomic counter. -/
structure Watcher where
  engine : List Rule
  event_handler : EventHandler
  /-- watched directory (canonical) → allowed rule names (empty = all).
  The source's `HashMap` iteration order is unspecified; the model fixes
  it as list order. -/
  watch_rules : List (FilePath × List String)
  canonical_cache : List (FilePath × FilePath)
  files_processed : Nat
  deriving Repr, DecidableEq

/-- `Watcher::new` (src/watcher/mod.rs:34-59): empty maps, counter at
zero.  The polling interval only configures the OS backend. -/
def Watcher.new (rules : List Rule) (debounce_seconds : Nat) : Watcher :=
  ⟨rules, ⟨[], debounce_seconds⟩, [], [], 0⟩

/-- The synchronous part of `Watcher::watch_with_rules`
(src/watcher/mod.rs:67-100): register the canonicalized directory in
`watch_rules` and `canonical_cache`.  The background initial scan the
source spawns here communicates only through the atomic counter, later;
it is modelled by `scanExistingBackground`. -/
def Watcher.watchWithRules (env : Env) (w : Watcher) (path : FilePath)
    (_recursive : Bool) (rules : List String) : Watcher :=
  let canonical := env.canon path
  { w with watch_rules := alInsert w.watch_rules canonical rules,
           canonical_cache := alInsert w.canonical_cache canonical canonical }

/-- `Watcher::carry_over_files_processed` (src/watcher/mod.rs:186-189):
copy the processed-file count from a previous watcher, "(e.g. on config
reload)" per its doc comment. -/
def Watcher.carryOverFilesProcessed (w old : Watcher) : Watcher :=
  { w with files_processed := old.files_processed }

/-- `Watcher::allowed_rules_for` (src/watcher/mod.rs:207-233): canonicalize
the file path, pick the registered watch directory that is a
component-prefix of it with the longest cached canonical byte length, and
return its rule filter when non-empty. -/
def Watcher.allowedRulesFor (env : Env) (w : Watcher) (filePath : FilePath) :
    Option (List String) :=
  let canonical := env.canon filePath
  let best := w.watch_rules.foldl
    (fun (best : Option (FilePath × List String)) wr =>
      let watchCanonical := (alGet w.canonical_cache wr.1).getD wr.1
      if watchCanonical.isPrefixOf canonical &&
         (match best with
          | none => true
          | some prev =>
            decide (osStrLen ((alGet w.canonical_cache prev.1).getD prev.1) <
                    osStrLen watchCanonical)) then
        some wr
      else best) none
  match best with
  | some (_, rules) => if rules.isEmpty then none else some rules
  | none => none

/-- The event kinds of the `notify` crate that matter to the watcher:
only Create and Modify are processed (src/watcher/mod.rs:131-132, 160). -/
inductive EventKind where
  | create
  | modify
  | remove
  | access
  | other
  deriving Repr, DecidableEq

/-- A raw `notify::Event`. -/
structure Event where
  kind : EventKind
  paths : List FilePath
  deriving Repr, DecidableEq

/-- `Watcher::process_polled_events` (src/watcher/mod.rs:124-172): for
each Create/Modify event, debounce its paths, then for each surviving
path resolve the per-directory rule filter and run
`process_filtered` — counting only `Ok(true)` outcomes; a `NotFound`
error is swallowed, any other error is reported to the error sink
(outside the model) — then clean up the debounce map and add the count to
`files_processed`.  Returns the processed count, the new watcher state
and the new filesystem. -/
def Watcher.processPolledEvents
    (gc rc : String → Except String (String → Bool)) (env : Env)
    (w : Watcher) (fs : Fs) (events : List Event) (now : Nat) :
    Nat × Watcher × Fs :=
  let step := fun (acc : Nat × EventHandler × Fs) (event : Event) =>
    match event.kind with
    | .create | .modify =>
      let res := EventHandler.shouldProcess acc.2.1 event.paths now
      let inner := res.1.foldl
        (fun (pa : Nat × Fs) path =>
          let allowed := Watcher.allowedRulesFor env w path
          match processFiltered gc rc env w.engine path allowed pa.2 with
          | (.ok true, f2) => (pa.1 + 1, f2)
          | (.ok false, f2) => (pa.1, f2)
          | (.error _, f2) => (pa.1, f2)) (acc.1, acc.2.2)
      (inner.1, res.2, inner.2)
    | _ => acc
  let res := events.foldl step (0, w.event_handler, fs)
  (res.1,
   { w with event_handler := EventHandler.cleanup res.2.1 now,
            files_processed := w.files_processed + res.1 },
   res.2.2)

/-- The file entries the initial scan visits
(src/watcher/mod.rs:247-263, 304-326): recursively, every regular file
under the root (`walkdir`, symlinks absent from the model); otherwise the
regular files directly inside the root.  In both cases only paths passing
`is_file()` survive. -/
def scanEntries (fs : Fs) (root : FilePath) (recursive : Bool) :
    List FilePath :=
  if recursive then
    (fs.files.map (·.1)).filter fun q => root.isPrefixOf q && !decide (q = root)
  else
    (fs.files.map (·.1)).filter fun q => decide (parentOf q = some root)

/-- `scan_existing_background` (src/watcher/mod.rs:237-302): evaluate
every visited file once against the filtered rule set, counting matches
(`Ok(true)`); errors are logged and skipped.  The count is what the spawned
thread later adds to the shared `files_processed` counter. -/
def scanExistingBackground (gc rc : String → Except String (String → Bool))
    (env : Env) (rules : List Rule) (allowed : Option (List String))
    (root : FilePath) (recursive : Bool) (fs : Fs) : Nat × Fs :=
  (scanEntries fs root recursive).foldl
    (fun (acc : Nat × Fs) fp =>
      match processFiltered gc rc env rules fp allowed acc.2 with
      | (.ok true, f2) => (acc.1 + 1, f2)
      | (.ok false, f2) => (acc.1, f2)
      | (.error _, f2) => (acc.1, f2)) (0, fs)

/-! ## Daemon configuration reload (src/daemon.rs:402-440) -/

/-- One entry of the configured watch list. -/
structure WatchConfig where
  path : FilePath
  recursive : Bool
  rules : List String
  deriving Repr, DecidableEq

/-- The slice of the configuration the reload branch consumes. -/
structure Config where
  rules : List Rule
  watches : List WatchConfig
  debounce_seconds : Nat
  deriving Repr, DecidableEq

/-- The successful-reload path of the SIGHUP branch of the daemon run
loop (src/daemon.rs:402-440): build a new rule engine from the reloaded
config, create a brand-new watcher (`Watcher::new`, counter at zero),
re-register every configured watch directory, and replace the old watcher
wholesale (`watcher = new_watcher`).  `carry_over_files_processed` is not
invoked anywhere in this branch (nor anywhere else in the repository).
The background scans spawned by re-registration add only their own future
match counts; under the claims' "no new files processed during the reload
window" proviso they contribute nothing. -/
def sighupReload (env : Env) (_old : Watcher) (cfg : Config) : Watcher :=
  let engine := cfg.rules
  cfg.watches.foldl
    (fun w wc =>
      Watcher.watchWithRules env w (env.expandPathFn wc.path) wc.recursive wc.rules)
    (Watcher.new engine cfg.debounce_seconds)

/-! ## Helper lemmas -/

theorem imGet_imInsert (m : List (FilePath × Nat)) (p q : FilePath) (v : Nat) :
    imGet (imInsert m p v) q = if q = p then some v else imGet m q := by
  induction m with
  | nil =>
    rcases eq_or_ne q p with rfl | hq
    · simp [imInsert, imGet]
    · simp [imInsert, imGet, hq, hq.symm]
  | cons e rest ih =>
    rcases e with ⟨k, u⟩
    by_cases hk : k = p
    · subst hk
      rcases eq_or_ne q k with rfl | hq
      · simp [imInsert, imGet]
      · simp [imInsert, imGet, hq, hq.symm]
    · rcases eq_or_ne k q with rfl | hkq
      · have hq : ¬ k = p := hk
        simp [imInsert, imGet, hk, fun h => hq (h : k = p)]
      · simp [imInsert, imGet, hk, hkq, ih]

theorem imInsert_of_imGet_none (m : List (FilePath × Nat)) (p : FilePath)
    (v : Nat) (h : imGet m p = none) : imInsert m p v = m ++ [(p, v)] := by
  induction m with
  | nil => simp [imInsert]
  | cons e rest ih =>
    by_cases h1 : e.1 = p
    · simp [imGet, h1] at h
    · simp [imGet, h1] at h
      simp [imInsert, h1, ih h]

/-- Pairwise-fresh, duplicate-free paths are all processed and appended. -/
theorem spLoop_fresh (w now : Nat) (ps : List FilePath) :
    ∀ recent, (∀ p ∈ ps, imGet recent p = none) → ps.Nodup →
    spLoop w recent ps now = (ps, recent ++ ps.map fun p => (p, now)) := by
  induction ps with
  | nil => intro recent _ _; simp [spLoop]
  | cons p rest ih =>
    intro recent hfresh hnd
    have hp : imGet recent p = none := hfresh p (by simp)
    have hrest : ∀ q ∈ rest, imGet (imInsert recent p now) q = none := by
      intro q hq
      rw [imGet_imInsert]
      have hqp : ¬ q = p := by
        intro hqp; exact (List.nodup_cons.mp hnd).1 (hqp ▸ hq)
      simp [hqp, hfresh q (by simp [hq])]
    have hnd2 : rest.Nodup := (List.nodup_cons.mp hnd).2
    simp only [spLoop, hp]
    rw [ih (imInsert recent p now) hrest hnd2,
        imInsert_of_imGet_none recent p now hp]
    simp

/-- A key already recorded at `now` keeps its value through the loop. -/
theorem spLoop_get_preserved (w now : Nat) (ps : List FilePath) :
    ∀ recent x, imGet recent x = some now →
    imGet (spLoop w recent ps now).2 x = some now := by
  induction ps with
  | nil => intro recent x hx; simpa [spLoop] using hx
  | cons p rest ih =>
    intro recent x hx
    simp only [spLoop]
    rcases hg : imGet recent p with _ | last
    · exact ih (imInsert recent p now) x (by rw [imGet_imInsert]; split <;> simp [hx])
    · by_cases hd : now - last > w
      · simp only [hg, hd, if_pos]
        exact ih (imInsert recent p now) x (by rw [imGet_imInsert]; split <;> simp [hx])
      · simp only [hg, decide_eq_true_eq, hd, if_neg]
        exact ih recent x hx
      -- (suppressed: map unchanged)

/-- Every path the loop reports is recorded at `now` in the final map. -/
theorem spLoop_mem_get (w now : Nat) (ps : List FilePath) :
    ∀ recent p, p ∈ (spLoop w recent ps now).1 →
    imGet (spLoop w recent ps now).2 p = some now := by
  induction ps with
  | nil => intro recent p hp; simp [spLoop] at hp
  | cons q rest ih =>
    intro recent p hp
    simp only [spLoop] at hp ⊢
    rcases hg : imGet recent q with _ | last
    · simp only [hg] at hp ⊢
      rcases List.mem_cons.mp hp with rfl | hmem
      · exact spLoop_get_preserved w now rest _ p (by rw [imGet_imInsert]; simp)
      · exact ih _ p hmem
    · by_cases hd : now - last > w
      · simp only [hg, hd, if_pos] at hp ⊢
        rcases List.mem_cons.mp hp with rfl | hmem
        · exact spLoop_get_preserved w now rest _ p (by rw [imGet_imInsert]; simp)
        · exact ih _ p hmem
      · simp only [hg, decide_eq_true_eq, hd, if_neg] at hp ⊢
        exact ih recent p hp

/-- A surviving filtered key keeps its first value. -/
theorem imGet_filter (pred : FilePath × Nat → Bool)
    (m : List (FilePath × Nat)) (p : FilePath) (v : Nat)
    (hget : imGet m p = some v) (hpred : pred (p, v) = true) :
    imGet (m.filter pred) p = some v := by
  induction m with
  | nil => simp [imGet] at hget
  | cons e rest ih =>
    by_cases h1 : e.1 = p
    · simp [imGet, h1] at hget
      have he : e = (p, v) := by
        rcases e with ⟨k, u⟩; simp_all
      subst he
      simp [List.filter, hpred, imGet]
    · simp [imGet, h1] at hget
      by_cases h2 : pred e = true
      · simp [List.filter, h2, imGet, h1, ih hget]
      · simp only [List.filter, Bool.not_eq_true] at h2 ⊢
        simp [h2, ih hget]

/-! ## Claim C4 — debounce suppression -/

/-- C4: for every path `P` and debounce window `w`, starting from a fresh
tracker the first event at `t` is processed; a second event at `t + ε`
with `0 < ε < w` is suppressed and leaves the table unchanged (the
last-seen timestamp is recorded only for processed events); a third event
at `t + w + ε` is processed again, the window having elapsed since the
first (processed) event. -/
theorem debounce_burst_first_edge (P : FilePath) (w t ε : Nat)
    (hε : 0 < ε) (hεw : ε < w) :
    let s1 := EventHandler.shouldProcess ⟨[], w⟩ [P] t
    let s2 := EventHandler.shouldProcess s1.2 [P] (t + ε)
    let s3 := EventHandler.shouldProcess s2.2 [P] (t + w + ε)
    s1.1 = [P] ∧ s1.2.recent = [(P, t)] ∧
    s2.1 = [] ∧ s2.2 = s1.2 ∧ s3.1 = [P] := by
  have h1 : EventHandler.shouldProcess ⟨[], w⟩ [P] t = ([P], ⟨[(P, t)], w⟩) := by
    simp [EventHandler.shouldProcess, spLoop, imGet, imInsert,
      MAX_DEBOUNCE_ENTRIES]
  have hlt2 : ¬ w < ε := by omega
  have h2 : EventHandler.shouldProcess ⟨[(P, t)], w⟩ [P] (t + ε) =
      ([], ⟨[(P, t)], w⟩) := by
    simp [EventHandler.shouldProcess, spLoop, imGet, hlt2,
      MAX_DEBOUNCE_ENTRIES]
  have hgt3 : w < w + ε := by omega
  have h3 : (EventHandler.shouldProcess ⟨[(P, t)], w⟩ [P] (t + w + ε)).1 =
      [P] := by
    simp [EventHandler.shouldProcess, spLoop, imGet, imInsert,
      MAX_DEBOUNCE_ENTRIES, Nat.add_assoc, hgt3]
  simp [h1, h2, h3]

/-- Witness for C4 at `P = /p`, `w = 2`, `t = 0`, `ε = 1`. -/
theorem debounce_burst_first_edge_witness :
    (0 < 1 ∧ 1 < 2) ∧
    (let s1 := EventHandler.shouldProcess ⟨[], 2⟩ [["p"]] 0
     let s2 := EventHandler.shouldProcess s1.2 [["p"]] (0 + 1)
     let s3 := EventHandler.shouldProcess s2.2 [["p"]] (0 + 2 + 1)
     s1.1 = [["p"]] ∧ s1.2.recent = [(["p"], 0)] ∧
     s2.1 = [] ∧ s2.2 = s1.2 ∧ s3.1 = [["p"]]) :=
  ⟨⟨by decide, by decide⟩,
   debounce_burst_first_edge ["p"] 2 0 1 (by decide) (by decide)⟩

/-! ## Claim C5 — the over-cap "clear" is in fact a cleanup -/

/-- Counterexample to C5: one call on a fresh tracker (window 1) with an
event carrying 10001 distinct paths leaves the debounce table with more
than the hard cap of 10000 entries, yet the table afterwards holds all
10001 entries — the forced over-cap `cleanup` retains every entry seen
within 10× the window, it does not clear the table. -/
theorem should_process_over_cap_not_cleared :
    (EventHandler.shouldProcess ⟨[], 1⟩
        ((List.range 10001).map fun i => List.replicate i "a") 0).2.recent.length
      = 10001 ∧ 10001 > MAX_DEBOUNCE_ENTRIES := by
  refine ⟨?_, by decide⟩
  have hnd : ((List.range 10001).map fun i =>
      (List.replicate i "a" : FilePath)).Nodup := by
    refine List.Nodup.map ?_ (List.nodup_range 10001)
    intro i j hij
    simpa using congrArg List.length hij
  have hloop := spLoop_fresh 1 0
    ((List.range 10001).map fun i => (List.replicate i "a" : FilePath)) []
    (fun p _ => rfl) hnd
  have hlen : (((List.range 10001).map fun i =>
      (List.replicate i "a" : FilePath)).map fun p => (p, (0 : Nat))).length
      = 10001 := by
    rw [List.length_map, List.length_map, List.length_range]
  have hfilter :
      ((((List.range 10001).map fun i => (List.replicate i "a" : FilePath)).map
          fun p => (p, (0 : Nat))).filter fun e => 0 - e.2 < 10 * 1) =
        ((List.range 10001).map fun i =>
          (List.replicate i "a" : FilePath)).map fun p => (p, (0 : Nat)) := by
    refine List.filter_eq_self.mpr ?_
    intro e he
    rcases List.mem_map.mp he with ⟨p, _, rfl⟩
    simp
  have hcond : (([] : List (FilePath × Nat)) ++
      ((List.range 10001).map fun i =>
        (List.replicate i "a" : FilePath)).map fun p => (p, (0 : Nat))).length >
      MAX_DEBOUNCE_ENTRIES := by
    rw [List.nil_append, hlen]; decide
  simp only [EventHandler.shouldProcess]
  rw [hloop, if_pos hcond]
  simp only [EventHandler.cleanup]
  rw [List.nil_append, hfilter, hlen]

/-- C5 as amended: when processing pushes the debounce table past the
hard cap, the forced `cleanup` removes exactly the entries last seen
`10 ×` the window or longer ago; with a positive window every path just
processed survives with its fresh timestamp, so the table is bounded but
never cleared of live entries. -/
theorem over_cap_cleanup_retains_recent (h : EventHandler)
    (ps : List FilePath) (now : Nat) (hw : 0 < h.debounce) :
    (∀ p ∈ (EventHandler.shouldProcess h ps now).1,
        imGet (EventHandler.shouldProcess h ps now).2.recent p = some now)
    ∧ ((spLoop h.debounce h.recent ps now).2.length > MAX_DEBOUNCE_ENTRIES →
        ∀ e ∈ (EventHandler.shouldProcess h ps now).2.recent,
          now - e.2 < 10 * h.debounce) := by
  have hfst : (EventHandler.shouldProcess h ps now).1 =
      (spLoop h.debounce h.recent ps now).1 := by
    simp only [EventHandler.shouldProcess]
    split <;> rfl
  constructor
  · intro p hp
    rw [hfst] at hp
    have hget := spLoop_mem_get h.debounce now ps h.recent p hp
    by_cases hover :
        (spLoop h.debounce h.recent ps now).2.length > MAX_DEBOUNCE_ENTRIES
    · have hsnd : (EventHandler.shouldProcess h ps now).2.recent =
          (spLoop h.debounce h.recent ps now).2.filter
            fun e => now - e.2 < 10 * h.debounce := by
        simp only [EventHandler.shouldProcess]
        rw [if_pos hover]
        rfl
      rw [hsnd]
      exact imGet_filter _ _ p now hget (by simp only [decide_eq_true_eq]; omega)
    · have hsnd : (EventHandler.shouldProcess h ps now).2.recent =
          (spLoop h.debounce h.recent ps now).2 := by
        simp only [EventHandler.shouldProcess]
        rw [if_neg hover]
      rw [hsnd]
      exact hget
  · intro hover e he
    have hsnd : (EventHandler.shouldProcess h ps now).2.recent =
        (spLoop h.debounce h.recent ps now).2.filter
          fun e => now - e.2 < 10 * h.debounce := by
      simp only [EventHandler.shouldProcess]
      rw [if_pos hover]
      rfl
    rw [hsnd] at he
    exact of_decide_eq_true (List.mem_filter.mp he).2

/-- Witness for the amended C5 on a small instance (window 1, one fresh
path): the processed path is recorded at the new timestamp, and the
over-cap hypothesis of the second conjunct is vacuous. -/
theorem over_cap_cleanup_retains_recent_witness :
    0 < (1 : Nat) ∧
    ((∀ p ∈ (EventHandler.shouldProcess ⟨[], 1⟩ [["a"]] 5).1,
        imGet (EventHandler.shouldProcess ⟨[], 1⟩ [["a"]] 5).2.recent p = some 5)
     ∧ ((spLoop 1 [] [["a"]] 5).2.length > MAX_DEBOUNCE_ENTRIES →
        ∀ e ∈ (EventHandler.shouldProcess ⟨[], 1⟩ [["a"]] 5).2.recent,
          5 - e.2 < 10 * 1)) :=
  ⟨by decide, over_cap_cleanup_retains_recent ⟨[], 1⟩ [["a"]] 5 (by decide)⟩

/-! ## Claims C2 and C3 — rule engine evaluation -/

/-- A pattern compiler that always succeeds and matches every file name;
used to instantiate theorems on concrete inputs. -/
def alwaysOk : String → Except String (String → Bool) :=
  fun _ => .ok fun _ => true

/-- C2: when every enabled rule's condition evaluates without error
(`mb` giving each enabled rule's match outcome), `evaluate` returns
exactly the action of the first rule in declaration order that is both
enabled and matching — so a disabled rule's action is never returned, of
two enabled matching rules the earlier wins, and the result is `none`
exactly when no enabled rule matches. -/
theorem evaluate_first_enabled_match
    (gc rc : String → Except String (String → Bool)) (fs : Fs)
    (rules : List Rule) (p : FilePath) (mb : Rule → Bool)
    (hok : ∀ r ∈ rules, r.enabled = true →
      r.condition.matches gc rc fs p = .ok (mb r)) :
    evaluate gc rc fs rules p =
      .ok ((rules.find? fun r => r.enabled && mb r).map fun r => r.action) := by
  induction rules with
  | nil => rfl
  | cons r rest ih =>
    have hok_rest : ∀ x ∈ rest, x.enabled = true →
        x.condition.matches gc rc fs p = .ok (mb x) :=
      fun x hx => hok x (List.mem_cons_of_mem _ hx)
    cases he : r.enabled with
    | false => simp [evaluate, he, List.find?_cons, ih hok_rest]
    | true =>
      have hm := hok r (List.mem_cons_self _ _) he
      cases hmb : mb r with
      | false =>
        rw [hmb] at hm
        simp [evaluate, he, hm, List.find?_cons, hmb, ih hok_rest]
      | true =>
        rw [hmb] at hm
        simp [evaluate, he, hm, List.find?_cons, hmb]

/-- Witness for C2: two enabled always-matching rules — the first one's
action is returned. -/
theorem evaluate_first_enabled_match_witness :
    (∀ r ∈ [(⟨"A", true, {}, .nothing, false⟩ : Rule),
            ⟨"B", true, {}, .delete, false⟩], r.enabled = true →
      r.condition.matches alwaysOk alwaysOk ⟨[], []⟩ ["tmp", "x.pdf"] =
        .ok ((fun _ => true) r))
    ∧ evaluate alwaysOk alwaysOk ⟨[], []⟩
        [⟨"A", true, {}, .nothing, false⟩, ⟨"B", true, {}, .delete, false⟩]
        ["tmp", "x.pdf"] = .ok (some .nothing) := by
  refine ⟨fun r hr _ => ?_, ?_⟩
  · fin_cases hr <;> rfl
  · have h := evaluate_first_enabled_match alwaysOk alwaysOk ⟨[], []⟩
      [⟨"A", true, {}, .nothing, false⟩, ⟨"B", true, {}, .delete, false⟩]
      ["tmp", "x.pdf"] (fun _ => true) (fun r hr _ => by fin_cases hr <;> rfl)
    simpa using h

/-- Containment for the filtered loop: a returned action belongs to an
enabled rule whose name is in the filter. -/
theorem evalFilteredLoop_containment
    (gc rc : String → Except String (String → Bool)) (fs : Fs)
    (names : List String) :
    ∀ (rules : List Rule) (p : FilePath) (a : Action),
      evalFilteredLoop gc rc fs names rules p = .ok (some a) →
      ∃ r, r ∈ rules ∧ r.enabled = true ∧ r.name ∈ names ∧ a = r.action := by
  intro rules
  induction rules with
  | nil => intro p a h; simp [evalFilteredLoop] at h
  | cons r rest ih =>
    intro p a h
    cases he : r.enabled with
    | false =>
      rw [evalFilteredLoop, if_neg (by simp [he])] at h
      obtain ⟨x, hx, hen, hn, ha⟩ := ih p a h
      exact ⟨x, List.mem_cons_of_mem _ hx, hen, hn, ha⟩
    | true =>
      rw [evalFilteredLoop, if_pos (by simp [he])] at h
      cases hc : names.contains r.name with
      | false =>
        rw [if_neg (by simpa using hc)] at h
        obtain ⟨x, hx, hen, hn, ha⟩ := ih p a h
        exact ⟨x, List.mem_cons_of_mem _ hx, hen, hn, ha⟩
      | true =>
        rw [if_pos (by simpa using hc)] at h
        rcases hm : r.condition.matches gc rc fs p with e | b
        · rw [hm] at h; cases h
        · rw [hm] at h
          cases b with
          | false =>
            obtain ⟨x, hx, hen, hn, ha⟩ := ih p a h
            exact ⟨x, List.mem_cons_of_mem _ hx, hen, hn, ha⟩
          | true =>
            refine ⟨r, List.mem_cons_self _ _, he, ?_, ?_⟩
            · simpa using hc
            · cases h; rfl

/-- C3: a non-empty name filter only ever returns the action of an
enabled rule whose name is in the filter, and a `None` or empty filter
makes `evaluate_filtered` coincide with `evaluate` over all enabled
rules. -/
theorem evaluate_filtered_spec
    (gc rc : String → Except String (String → Bool)) (fs : Fs)
    (rules : List Rule) (p : FilePath) (names : List String) (a : Action) :
    (names ≠ [] →
      evaluateFiltered gc rc fs rules p (some names) = .ok (some a) →
      ∃ r, r ∈ rules ∧ r.enabled = true ∧ r.name ∈ names ∧ a = r.action)
    ∧ evaluateFiltered gc rc fs rules p none = evaluate gc rc fs rules p
    ∧ evaluateFiltered gc rc fs rules p (some []) =
        evaluate gc rc fs rules p := by
  refine ⟨fun hne h => ?_, rfl, rfl⟩
  rw [evaluateFiltered, if_neg (by simpa using hne)] at h
  exact evalFilteredLoop_containment gc rc fs names rules p a h

/-- Witness for C3: filter `["B"]` over two always-matching rules returns
rule B's action, which indeed belongs to an enabled rule named in the
filter. -/
theorem evaluate_filtered_spec_witness :
    (["B"] ≠ ([] : List String)) ∧
    evaluateFiltered alwaysOk alwaysOk ⟨[], []⟩
      [⟨"A", true, {}, .nothing, false⟩, ⟨"B", true, {}, .delete, false⟩]
      ["tmp", "x.pdf"] (some ["B"]) = .ok (some .delete) ∧
    ∃ r, r ∈ [(⟨"A", true, {}, .nothing, false⟩ : Rule),
              ⟨"B", true, {}, .delete, false⟩] ∧
      r.enabled = true ∧ r.name ∈ ["B"] ∧ Action.delete = r.action :=
  ⟨by simp, rfl,
   (evaluate_filtered_spec alwaysOk alwaysOk ⟨[], []⟩
      [⟨"A", true, {}, .nothing, false⟩, ⟨"B", true, {}, .delete, false⟩]
      ["tmp", "x.pdf"] ["B"] Action.delete).1 (by simp) rfl⟩

/-! ## Claim C6 — hidden files are not skipped by the watcher -/

/-- Counterexample to C6: a Create event for `/in/.secret` — a path whose
final component starts with a dot — is run through the rule engine by the
event-processing loop: with one enabled catch-all rule the processed
count is 1, not the 0 that skipping hidden files without calling the rule
engine would produce.  Neither `process_polled_events` nor the background
scan contains a hidden-file test. -/
theorem hidden_file_event_is_processed :
    startsWithDot ((fileNameOf ["in", ".secret"]).getD "") = true ∧
    (Watcher.processPolledEvents alwaysOk alwaysOk defaultEnv
        ⟨[⟨"All", true, {}, .nothing, false⟩], ⟨[], 2⟩, [], [], 0⟩
        ⟨[], []⟩ [⟨.create, [["in", ".secret"]]⟩] 0).1 = 1 :=
  ⟨rfl, rfl⟩

/-- C6 as amended: the watcher passes hidden files to the rule engine
exactly like any other path — a debounced Create event for a hidden path
is counted iff its filtered evaluation fires, and the background scan's
entry list contains every file under the root regardless of a leading
dot; hidden files are only distinguishable through the `is_hidden`
condition predicate. -/
theorem hidden_files_reach_rule_engine
    (gc rc : String → Except String (String → Bool)) (env : Env)
    (w : Watcher) (fs fs2 : Fs) (p : FilePath) (now : Nat) (b : Bool)
    (_hhidden : startsWithDot ((fileNameOf p).getD "") = true)
    (hfresh : w.event_handler.recent = [])
    (hpf : processFiltered gc rc env w.engine p
        (Watcher.allowedRulesFor env w p) fs = (.ok b, fs2)) :
    (Watcher.processPolledEvents gc rc env w fs [⟨.create, [p]⟩] now).1 =
      (if b then 1 else 0)
    ∧ ∀ (fsA : Fs) (root : FilePath), p ∈ fsA.files.map (·.1) →
        root.isPrefixOf p → p ≠ root → p ∈ scanEntries fsA root true := by
  constructor
  · have hsp : EventHandler.shouldProcess w.event_handler [p] now =
        ([p], ⟨[(p, now)], w.event_handler.debounce⟩) := by
      simp [EventHandler.shouldProcess, spLoop, imGet, imInsert, hfresh,
        MAX_DEBOUNCE_ENTRIES]
    cases b with
    | true => simp [Watcher.processPolledEvents, hsp, hpf]
    | false => simp [Watcher.processPolledEvents, hsp, hpf]
  · intro fsA root hmem hpre hne
    simp only [scanEntries, if_pos rfl, List.mem_filter, if_true]
    refine ⟨hmem, ?_⟩
    simp [hpre, hne]

/-- Witness for the amended C6: the hidden file `/d/.hidden.pdf` with a
catch-all rule is counted once, and appears in the recursive scan list of
a tree containing it. -/
theorem hidden_files_reach_rule_engine_witness :
    (startsWithDot ((fileNameOf ["d", ".hidden.pdf"]).getD "") = true) ∧
    ((Watcher.processPolledEvents alwaysOk alwaysOk defaultEnv
        ⟨[⟨"R", true, {}, .nothing, false⟩], ⟨[], 3⟩, [], [], 0⟩
        ⟨[], []⟩ [⟨.create, [["d", ".hidden.pdf"]]⟩] 7).1 =
        (if true then 1 else 0)
     ∧ ∀ (fsA : Fs) (root : FilePath),
         ["d", ".hidden.pdf"] ∈ fsA.files.map (·.1) →
         root.isPrefixOf ["d", ".hidden.pdf"] → ["d", ".hidden.pdf"] ≠ root →
         ["d", ".hidden.pdf"] ∈ scanEntries fsA root true) :=
  ⟨by decide,
   hidden_files_reach_rule_engine alwaysOk alwaysOk defaultEnv
     ⟨[⟨"R", true, {}, .nothing, false⟩], ⟨[], 3⟩, [], [], 0⟩
     ⟨[], []⟩ ⟨[], []⟩ ["d", ".hidden.pdf"] 7 true (by decide) rfl rfl⟩

/-! ## Filesystem lemmas -/

theorem find_filter_ne (l : List (FilePath × FsFile)) (p q : FilePath)
    (h : ¬ q = p) :
    ((l.filter fun e => !decide (e.1 = p)).find? fun e => decide (e.1 = q)) =
      l.find? fun e => decide (e.1 = q) := by
  induction l with
  | nil => rfl
  | cons e rest ih =>
    by_cases hp : e.1 = p
    · have hq : ¬ e.1 = q := fun hh => h (by rw [← hh, hp])
      have h1 : (!decide (e.1 = p)) = false := by simp [hp]
      have h2 : (decide (e.1 = q)) = false := by simp [hq]
      simp [List.filter_cons, h1, List.find?_cons, h2, ih]
    · have h1 : (!decide (e.1 = p)) = true := by simp [hp]
      by_cases hq : e.1 = q
      · have h2 : (decide (e.1 = q)) = true := by simp [hq]
        simp [List.filter_cons, h1, List.find?_cons, h2]
      · have h2 : (decide (e.1 = q)) = false := by simp [hq]
        simp [List.filter_cons, h1, List.find?_cons, h2, ih]

theorem Fs.lookup_setFile (fs : Fs) (p q : FilePath) (f : FsFile) :
    (fs.setFile p f).lookup q = if q = p then some f else fs.lookup q := by
  by_cases h : q = p
  · subst h
    simp [Fs.setFile, Fs.lookup, List.find?_cons]
  · have hd : (decide (p = q)) = false := by
      simp only [decide_eq_false_iff_not]
      exact fun hh => h hh.symm
    simp only [Fs.setFile, Fs.lookup, List.find?_cons, if_neg h, hd]
    rw [find_filter_ne fs.files p q h]

theorem find_filter_self (l : List (FilePath × FsFile)) (q : FilePath) :
    ((l.filter fun e => !decide (e.1 = q)).find? fun e => decide (e.1 = q)) =
      none := by
  induction l with
  | nil => rfl
  | cons e rest ih =>
    by_cases hp : e.1 = q
    · have h1 : (!decide (e.1 = q)) = false := by simp [hp]
      simp [List.filter_cons, h1, ih]
    · have h1 : (!decide (e.1 = q)) = true := by simp [hp]
      have h2 : (decide (e.1 = q)) = false := by simp [hp]
      simp [List.filter_cons, h1, List.find?_cons, h2, ih]

theorem Fs.lookup_removeEntry (fs : Fs) (p q : FilePath) :
    (fs.removeEntry p).lookup q = if q = p then none else fs.lookup q := by
  by_cases h : q = p
  · subst h
    simp only [Fs.removeEntry, Fs.lookup, if_pos rfl]
    rw [find_filter_self]
    rfl
  · simp only [Fs.removeEntry, Fs.lookup, if_neg h]
    rw [find_filter_ne fs.files p q h]

theorem fsCreateDirAll_files (fs fs1 : Fs) (d : FilePath)
    (h : fsCreateDirAll fs d = .ok fs1) :
    fs1.files = fs.files ∧ (fs1.dirs = fs.dirs ∨ fs1.dirs = d :: fs.dirs) := by
  unfold fsCreateDirAll at h
  by_cases hl : (fs.lookup d).isSome
  · simp [hl] at h
  · rw [if_neg hl] at h
    cases h
    refine ⟨rfl, ?_⟩
    by_cases hc : fs.dirs.contains d = true
    · exact .inl (by rw [if_pos hc])
    · exact .inr (by rw [if_neg hc])

/-- Lookup only reads the `files` field. -/
theorem Fs.lookup_congr_files (fs1 fs2 : Fs) (q : FilePath)
    (h : fs1.files = fs2.files) : fs1.lookup q = fs2.lookup q := by
  unfold Fs.lookup
  rw [h]

/-! ## Claim C7 — Move safety -/

/-- C7: for `Action::Move` on a source file `p` (content record `c`) whose
file name is `fn`, with no regular file occupying the destination
directory path and not moving the file onto itself:
(a) when a file or directory already exists at `destination/fn` and
`overwrite = false`, the Move arm fails with the `AlreadyExists`-class
error and no filesystem state of its execution ever differs from the
initial one on files — the source is untouched, no rename, copy or delete
happened; and
(b) whatever the overwrite flag and whether the rename succeeds or falls
back to copy-then-delete, every intermediate filesystem state of the
execution holds the content `c` at the source or at the destination — at
no point are there zero copies. -/
theorem move_overwrite_guard_and_liveness
    (env : Env) (destination : FilePath) (cd ow : Bool) (p : FilePath)
    (fn : String) (c : FsFile) (fs : Fs)
    (hsrc : fs.lookup p = some c)
    (hfn : fileNameOf p = some fn)
    (hdestfile : fs.lookup (env.expandPathFn destination) = none)
    (hne : env.expandPathFn destination ++ [fn] ≠ p) :
    (ow = false →
      fs.pathExists (env.expandPathFn destination ++ [fn]) = true →
      (moveTrace env destination cd ow p fs).1 = .error .alreadyExists ∧
      ∀ st ∈ (moveTrace env destination cd ow p fs).2, st.files = fs.files)
    ∧ ∀ st ∈ (moveTrace env destination cd ow p fs).2,
        st.lookup p = some c ∨
        st.lookup (env.expandPathFn destination ++ [fn]) = some c := by
  -- the create_dir_all step always succeeds and leaves files unchanged
  have hstep : ∃ fs1,
      (if cd then fsCreateDirAll fs (env.expandPathFn destination)
       else .ok fs) = .ok fs1 ∧
      fs1.files = fs.files ∧
      (fs1.dirs = fs.dirs ∨ fs1.dirs = env.expandPathFn destination :: fs.dirs) := by
    cases cd with
    | false => exact ⟨fs, rfl, rfl, .inl rfl⟩
    | true =>
      have hok : fsCreateDirAll fs (env.expandPathFn destination) =
          .ok { fs with dirs :=
            if fs.dirs.contains (env.expandPathFn destination) then fs.dirs
            else env.expandPathFn destination :: fs.dirs } := by
        unfold fsCreateDirAll
        rw [if_neg (by simp [hdestfile])]
      have hfacts := fsCreateDirAll_files fs _ (env.expandPathFn destination) hok
      exact ⟨_, by rw [if_pos rfl]; exact hok, hfacts.1, hfacts.2⟩
  obtain ⟨fs1, hif, hfiles1, hdirs1⟩ := hstep
  have hlook1 : ∀ q, fs1.lookup q = fs.lookup q :=
    fun q => Fs.lookup_congr_files fs1 fs q hfiles1
  have hsrc1 : fs1.lookup p = some c := by rw [hlook1]; exact hsrc
  constructor
  · -- (a) destination collision with overwrite = false
    intro how hex
    have hex1 : fs1.pathExists (env.expandPathFn destination ++ [fn]) = true := by
      simp only [Fs.pathExists, Fs.isDir, Bool.or_eq_true] at hex ⊢
      rw [hlook1]
      rcases hex with hl | hd
      · exact .inl hl
      · refine .inr ?_
        rcases hdirs1 with h1 | h1 <;> rw [h1]
        · exact hd
        · have hmem : (env.expandPathFn destination ++ [fn]) ∈ fs.dirs := by
            simpa using hd
          simpa using List.mem_cons_of_mem (env.expandPathFn destination) hmem
    have hguard : (fs1.pathExists (env.expandPathFn destination ++ [fn]) && !ow)
        = true := by rw [hex1, how]; rfl
    have hres : moveTrace env destination cd ow p fs =
        (.error .alreadyExists, [fs, fs1]) := by
      simp only [moveTrace, hif, hfn, hguard, if_true]
    rw [hres]
    refine ⟨rfl, ?_⟩
    intro st hst
    simp only [List.mem_cons, List.not_mem_nil, or_false] at hst
    rcases hst with rfl | rfl
    · rfl
    · exact hfiles1
  · -- (b) liveness of the content along every intermediate state
    intro st hst
    simp only [moveTrace, hif, hfn] at hst
    cases hguard :
        (fs1.pathExists (env.expandPathFn destination ++ [fn]) && !ow) with
    | true =>
      simp only [hguard, if_true, List.mem_cons, List.not_mem_nil, or_false]
        at hst
      rcases hst with rfl | rfl
      · exact .inl hsrc
      · exact .inl hsrc1
    | false =>
      simp only [hguard, Bool.false_eq_true, if_false] at hst
      cases hren : env.renameOk p (env.expandPathFn destination ++ [fn]) with
      | true =>
        -- rename attempted; it succeeds because the source exists
        simp only [hren, if_true, fsRename, hsrc1, List.mem_cons,
          List.not_mem_nil, or_false] at hst
        rcases hst with rfl | rfl | rfl
        · exact .inl hsrc
        · exact .inl hsrc1
        · refine .inr ?_
          rw [Fs.lookup_setFile, if_pos rfl]
      | false =>
        -- fallback: copy then delete the source
        simp only [hren, Bool.false_eq_true, if_false, fsCopy, hsrc1] at hst
        cases hcp : env.copyOk with
        | false =>
          simp only [hcp, Bool.false_eq_true, if_false, List.mem_cons,
            List.not_mem_nil, or_false] at hst
          rcases hst with rfl | rfl
          · exact .inl hsrc
          · exact .inl hsrc1
        | true =>
          have hcopydst :
              (fs1.setFile (env.expandPathFn destination ++ [fn]) c).lookup
                (env.expandPathFn destination ++ [fn]) = some c := by
            rw [Fs.lookup_setFile, if_pos rfl]
          have hcopysrc :
              (fs1.setFile (env.expandPathFn destination ++ [fn]) c).lookup
                p = some c := by
            rw [Fs.lookup_setFile, if_neg (fun hh => hne hh.symm)]
            exact hsrc1
          simp only [hcp, if_true, fsRemoveFile, hcopysrc, Option.isSome_some,
            List.mem_cons, List.not_mem_nil, or_false, if_true] at hst
          rcases hst with rfl | rfl | rfl | rfl
          · exact .inl hsrc
          · exact .inl hsrc1
          · exact .inr hcopydst
          · refine .inr ?_
            rw [Fs.lookup_removeEntry, if_neg hne]
            exact hcopydst

/-- Witness for C7: `/in/f.txt` moved to `/out` where `/out/f.txt`
already exists, with `overwrite = false` — the `AlreadyExists` error is
returned with all states untouched, and content liveness holds along the
trace. -/
theorem move_overwrite_guard_and_liveness_witness :
    ((⟨[(["in", "f.txt"], ⟨3, some 0, "abc"⟩),
        (["out", "f.txt"], ⟨1, some 0, "z"⟩)], [["out"]]⟩ : Fs).lookup
        ["in", "f.txt"] = some ⟨3, some 0, "abc"⟩) ∧
    ((false = false →
      (⟨[(["in", "f.txt"], ⟨3, some 0, "abc"⟩),
         (["out", "f.txt"], ⟨1, some 0, "z"⟩)], [["out"]]⟩ : Fs).pathExists
        (defaultEnv.expandPathFn ["out"] ++ ["f.txt"]) = true →
      (moveTrace defaultEnv ["out"] true false ["in", "f.txt"]
        ⟨[(["in", "f.txt"], ⟨3, some 0, "abc"⟩),
          (["out", "f.txt"], ⟨1, some 0, "z"⟩)], [["out"]]⟩).1 =
        .error .alreadyExists ∧
      ∀ st ∈ (moveTrace defaultEnv ["out"] true false ["in", "f.txt"]
        ⟨[(["in", "f.txt"], ⟨3, some 0, "abc"⟩),
          (["out", "f.txt"], ⟨1, some 0, "z"⟩)], [["out"]]⟩).2,
        st.files = (⟨[(["in", "f.txt"], ⟨3, some 0, "abc"⟩),
          (["out", "f.txt"], ⟨1, some 0, "z"⟩)], [["out"]]⟩ : Fs).files)
     ∧ ∀ st ∈ (moveTrace defaultEnv ["out"] true false ["in", "f.txt"]
        ⟨[(["in", "f.txt"], ⟨3, some 0, "abc"⟩),
          (["out", "f.txt"], ⟨1, some 0, "z"⟩)], [["out"]]⟩).2,
        st.lookup ["in", "f.txt"] = some ⟨3, some 0, "abc"⟩ ∨
        st.lookup (defaultEnv.expandPathFn ["out"] ++ ["f.txt"]) =
          some ⟨3, some 0, "abc"⟩) :=
  ⟨rfl,
   move_overwrite_guard_and_liveness defaultEnv ["out"] true false
     ["in", "f.txt"] "f.txt" ⟨3, some 0, "abc"⟩
     ⟨[(["in", "f.txt"], ⟨3, some 0, "abc"⟩),
       (["out", "f.txt"], ⟨1, some 0, "z"⟩)], [["out"]]⟩
     rfl rfl rfl (by decide)⟩

/-! ## Claim C8 — the Run arm's shell/direct dispatch -/

/-- Counterexample to C8, in two parts.
(1) Direct branch: with no explicit arguments, the command `echo {path}`
(no shell operator) is split on whitespace and the token `{path}` is
passed to the program verbatim — the placeholder is NOT expanded
per-argument, although its expansion differs.
(2) Shell branch: a custom date placeholder's rendering (chrono passes
the `%`-free format `a b` through literally) is substituted into the
shell command without being shell-escaped, although the escape function
(here wrapping in `ESC(...)`) would have changed it. -/
theorem run_plan_counterexample :
    runPlan id id "echo {path}" [] ["tmp", "a.pdf"] = .direct "echo" ["{path}"]
    ∧ expandPattern id "{path}" ["tmp", "a.pdf"] = "/tmp/a.pdf"
    ∧ "{path}" ≠ "/tmp/a.pdf"
    ∧ runPlan (fun s => "ESC(" ++ s ++ ")") id "touch \x7bdate:a b\x7d|x" [] []
        = .shell "touch a b|x"
    ∧ (fun (s : String) => "ESC(" ++ s ++ ")") "a b" ≠ "a b" :=
  ⟨rfl, rfl, by decide, rfl, by decide⟩

/-- C8 as amended: the Run arm executes through a shell iff the command
contains a shell operator and the explicit argument list is empty; the
shell branch substitutes placeholders via `expand_pattern_shell_escaped`
(file-derived values escaped, date renderings as-is); with explicit
arguments the program is the command string and each argument has its
placeholders expanded (not escaped); with no arguments and an operatorless
command containing a space, the command is split on whitespace and those
tokens are passed verbatim; and the spawned process's status yields
success iff it exited 0, a spawn failure or non-zero exit being an error
(the command is built and spawned once — no retry). -/
theorem run_plan_spec (escape fmt : String → String) (command : String)
    (args : List String) (p : FilePath) :
    ((∃ sc, runPlan escape fmt command args p = .shell sc) ↔
      (hasShellOperators command = true ∧ args = []))
    ∧ (hasShellOperators command = true →
        runPlan escape fmt command [] p =
          .shell (expandPatternShellEscaped escape fmt command p))
    ∧ (args ≠ [] →
        runPlan escape fmt command args p =
          .direct command (args.map fun a => expandPattern fmt a p))
    ∧ (hasShellOperators command = false → args = [] →
        strContainsChar command ' ' = true →
        runPlan escape fmt command args p =
          .direct ((splitWhitespace command).headD "")
            (splitWhitespace command).tail)
    ∧ (hasShellOperators command = false → args = [] →
        strContainsChar command ' ' = false →
        runPlan escape fmt command args p = .direct command [])
    ∧ (∀ st, runStatusResult (some st) = .ok () ↔ st = 0)
    ∧ runStatusResult none = .error .spawnFailed := by
  refine ⟨⟨?_, ?_⟩, ?_, ?_, ?_, ?_, ?_, rfl⟩
  · rintro ⟨sc, hsc⟩
    by_cases hgo : (hasShellOperators command && args.isEmpty) = true
    · rcases Bool.and_eq_true_iff.mp hgo with ⟨h1, h2⟩
      exact ⟨h1, by simpa using h2⟩
    · rw [runPlan, if_neg hgo] at hsc
      simp at hsc
  · rintro ⟨h1, rfl⟩
    exact ⟨_, by rw [runPlan, if_pos (by rw [h1]; rfl)]⟩
  · intro h1
    rw [runPlan, if_pos (by rw [h1]; rfl)]
  · intro hargs
    have hie : args.isEmpty = false := by
      cases args with
      | nil => exact absurd rfl hargs
      | cons a as => rfl
    simp [runPlan, hie]
  · intro h1 h2 h3
    subst h2
    cases hsw : splitWhitespace command with
    | nil => simp [runPlan, h1, h3, hsw]
    | cons p0 rest => simp [runPlan, h1, h3, hsw]
  · intro h1 h2 h3
    subst h2
    simp [runPlan, h1, h3]
  · intro st
    cases st with
    | zero => simp [runStatusResult]
    | succ n => simp [runStatusResult]

/-- Witness for the amended C8: `rm x && y` with no explicit arguments
runs through the shell with the escaped expansion. -/
theorem run_plan_spec_witness :
    hasShellOperators "rm x && y" = true ∧
    runPlan id id "rm x && y" [] ["tmp", "a.pdf"] =
      .shell (expandPatternShellEscaped id id "rm x && y" ["tmp", "a.pdf"]) :=
  ⟨rfl, (run_plan_spec id id "rm x && y" [] ["tmp", "a.pdf"]).2.1 rfl⟩

/-! ## Claim C9 — matching against a missing file -/

/-- Exhaustive outcomes of `Condition::matches`: an error coming from the
glob compiler, an error coming from the regex compiler, an early
non-match, or the value of the effect-free tail checks. -/
theorem matches_outcomes (gc rc : String → Except String (String → Bool))
    (c : Condition) (fs : Fs) (p : FilePath) :
    (∃ pat e, c.name_matches = some pat ∧ gc pat = .error e ∧
        Condition.matches gc rc c fs p = .error e) ∨
    (∃ pat e, c.name_regex = some pat ∧ rc pat = .error e ∧
        Condition.matches gc rc c fs p = .error e) ∨
    Condition.matches gc rc c fs p = .ok false ∨
    Condition.matches gc rc c fs p = .ok (metaTailChecks c fs p) := by
  unfold Condition.matches
  by_cases h1 : (c.extension.any fun ext => !checkExtension p ext) = true
  · rw [if_pos h1]
    exact .inr (.inr (.inl (by trivial)))
  · rw [if_neg h1]
    by_cases h2 : (!c.extensions.isEmpty &&
        !(c.extensions.any fun ext => checkExtension p ext)) = true
    · rw [if_pos h2]
      exact .inr (.inr (.inl (by trivial)))
    · rw [if_neg h2]
      cases hnm : c.name_matches with
      | some pat =>
        rcases hgc : gc pat with e | m
        · refine .inl ⟨pat, e, rfl, hgc, ?_⟩
          simp only [checkGlob, hgc, Except.map, Except.bind]
        · simp only [checkGlob, hgc, Except.map, Except.bind]
          cases hm : m ((fileNameOf p).getD "") with
          | false =>
            simp only [Bool.not_false, if_true]
            exact .inr (.inr (.inl (by trivial)))
          | true =>
            simp only [Bool.not_true, Bool.false_eq_true, if_false]
            cases hnr : c.name_regex with
            | some pat2 =>
              rcases hrc : rc pat2 with e2 | m2
              · refine .inr (.inl ⟨pat2, e2, rfl, hrc, ?_⟩)
                simp only [checkRegex, hrc, Except.map, Except.bind]
              · simp only [checkRegex, hrc, Except.map, Except.bind]
                cases hm2 : m2 ((fileNameOf p).getD "") with
                | false =>
                  simp only [Bool.not_false, if_true]
                  exact .inr (.inr (.inl (by trivial)))
                | true =>
                  simp only [Bool.not_true, Bool.false_eq_true, if_false]
                  exact .inr (.inr (.inr (by trivial)))
            | none =>
              simp only [Except.bind, Bool.not_true, Bool.false_eq_true,
                if_false]
              exact .inr (.inr (.inr (by trivial)))
      | none =>
        simp only [Except.bind, Bool.not_true, Bool.false_eq_true, if_false]
        cases hnr : c.name_regex with
        | some pat2 =>
          rcases hrc : rc pat2 with e2 | m2
          · refine .inr (.inl ⟨pat2, e2, rfl, hrc, ?_⟩)
            simp only [checkRegex, hrc, Except.map, Except.bind]
          · simp only [checkRegex, hrc, Except.map, Except.bind]
            cases hm2 : m2 ((fileNameOf p).getD "") with
            | false =>
              simp only [Bool.not_false, if_true]
              exact .inr (.inr (.inl (by trivial)))
            | true =>
              simp only [Bool.not_true, Bool.false_eq_true, if_false]
              exact .inr (.inr (.inr (by trivial)))
        | none =>
          simp only [Except.bind, Bool.not_true, Bool.false_eq_true, if_false]
          exact .inr (.inr (.inr (by trivial)))

/-- C9 as amended: for a path that does not exist on the filesystem,
`Condition::matches` can only fail through glob/regex pattern
compilation (and never raises when neither pattern is present), and the
missing file fails every metadata-dependent predicate — any size or age
bound, and `is_directory = some true`, force a non-match — while
conditions made only of name-derived predicates are evaluated on the
path string alone, so a missing file can still match (the claim's
"treats the missing file as a non-match" does not hold in general). -/
theorem matches_missing_file_spec
    (gc rc : String → Except String (String → Bool)) (c : Condition)
    (fs : Fs) (p : FilePath)
    (hmiss : fs.pathExists p = false) :
    (∀ e, Condition.matches gc rc c fs p = .error e →
        (∃ pat, c.name_matches = some pat ∧ gc pat = .error e) ∨
        (∃ pat, c.name_regex = some pat ∧ rc pat = .error e))
    ∧ (c.name_matches = none → c.name_regex = none →
        ∃ b, Condition.matches gc rc c fs p = .ok b)
    ∧ (∀ b, Condition.matches gc rc c fs p = .ok b →
        ((c.size_greater_than.isSome || c.size_less_than.isSome ||
          c.age_days_greater_than.isSome || c.age_days_less_than.isSome) = true →
          b = false)
        ∧ (c.is_directory = some true → b = false)) := by
  have hl : fs.lookup p = none := by
    rcases hx : fs.lookup p with _ | f
    · rfl
    · unfold Fs.pathExists at hmiss
      rw [hx] at hmiss
      simp at hmiss
  have hdir : fs.isDir p = false := by
    unfold Fs.pathExists at hmiss
    rcases Bool.or_eq_false_iff.mp hmiss with ⟨_, h⟩
    exact h
  have hmeta : fs.metadata p = none := by
    unfold Fs.metadata
    rw [hl, hdir]
    rfl
  have hmt1 : (c.size_greater_than.isSome || c.size_less_than.isSome ||
      c.age_days_greater_than.isSome || c.age_days_less_than.isSome) = true →
      metaTailChecks c fs p = false := by
    intro hpres
    simp only [metaTailChecks, hpres, if_true, hmeta, Bool.false_and]
  have hmt2 : c.is_directory = some true → metaTailChecks c fs p = false := by
    intro hd
    simp [metaTailChecks, hd, hdir]
  refine ⟨?_, ?_, ?_⟩
  · intro e he
    rcases matches_outcomes gc rc c fs p with
      ⟨pat, e2, hnm, hgc, hM⟩ | ⟨pat, e2, hnr, hrc, hM⟩ | hM | hM
    · rw [hM] at he
      cases he
      exact .inl ⟨pat, hnm, hgc⟩
    · rw [hM] at he
      cases he
      exact .inr ⟨pat, hnr, hrc⟩
    · rw [hM] at he; cases he
    · rw [hM] at he; cases he
  · intro hnm hnr
    rcases matches_outcomes gc rc c fs p with
      ⟨pat, e2, hx, _, _⟩ | ⟨pat, e2, hx, _, _⟩ | hM | hM
    · rw [hnm] at hx; cases hx
    · rw [hnr] at hx; cases hx
    · exact ⟨false, hM⟩
    · exact ⟨_, hM⟩
  · intro b hb
    rcases matches_outcomes gc rc c fs p with
      ⟨_, _, _, _, hM⟩ | ⟨_, _, _, _, hM⟩ | hM | hM
    · rw [hM] at hb; cases hb
    · rw [hM] at hb; cases hb
    · rw [hM] at hb
      cases hb
      exact ⟨fun _ => rfl, fun _ => rfl⟩
    · rw [hM] at hb
      cases hb
      exact ⟨fun hpres => hmt1 hpres, fun hd => hmt2 hd⟩

/-- Counterexample to C9 as frozen: the empty condition — every predicate
absent — applied to a path that does not exist still returns `Ok(true)`
(the spec's own invariant "an empty condition matches every path"), not
the claimed non-match `false`. -/
theorem matches_missing_file_can_match :
    Fs.pathExists ⟨[], []⟩ ["tmp", "ghost.pdf"] = false ∧
    Condition.matches alwaysOk alwaysOk {} ⟨[], []⟩ ["tmp", "ghost.pdf"] =
      .ok true :=
  ⟨rfl, rfl⟩

/-- Witness for the amended C9 on a size-bounded condition over an empty
filesystem: no error is possible without patterns, and the size predicate
forces a non-match for the missing file. -/
theorem matches_missing_file_spec_witness :
    Fs.pathExists ⟨[], []⟩ ["tmp", "ghost.pdf"] = false ∧
    ((∀ e, Condition.matches alwaysOk alwaysOk
          { size_greater_than := some 10 } ⟨[], []⟩ ["tmp", "ghost.pdf"] =
          .error e →
        (∃ pat, ({ size_greater_than := some 10 } : Condition).name_matches =
            some pat ∧ alwaysOk pat = .error e) ∨
        (∃ pat, ({ size_greater_than := some 10 } : Condition).name_regex =
            some pat ∧ alwaysOk pat = .error e))
     ∧ (({ size_greater_than := some 10 } : Condition).name_matches = none →
        ({ size_greater_than := some 10 } : Condition).name_regex = none →
        ∃ b, Condition.matches alwaysOk alwaysOk
          { size_greater_than := some 10 } ⟨[], []⟩ ["tmp", "ghost.pdf"] = .ok b)
     ∧ (∀ b, Condition.matches alwaysOk alwaysOk
          { size_greater_than := some 10 } ⟨[], []⟩ ["tmp", "ghost.pdf"] =
          .ok b →
        ((({ size_greater_than := some 10 } : Condition).size_greater_than.isSome ||
          ({ size_greater_than := some 10 } : Condition).size_less_than.isSome ||
          ({ size_greater_than := some 10 } : Condition).age_days_greater_than.isSome ||
          ({ size_greater_than := some 10 } : Condition).age_days_less_than.isSome) = true →
          b = false)
        ∧ (({ size_greater_than := some 10 } : Condition).is_directory = some true →
          b = false))) :=
  ⟨rfl, matches_missing_file_spec alwaysOk alwaysOk
    { size_greater_than := some 10 } ⟨[], []⟩ ["tmp", "ghost.pdf"] rfl⟩

/-! ## Claim C10 — Archive of a directory with delete_original -/

/-- C10: archiving a directory with `delete_original = true` writes the
zip fully, then attempts the plain-file `remove_file` on the directory,
which fails with the is-a-directory error; so `execute` returns an error,
the directory (and every file other than the archive path) is untouched,
and the freshly created archive remains on disk. -/
theorem archive_dir_delete_original_fails
    (env : Env) (destination : Option FilePath) (p : FilePath) (fs : Fs)
    (stem : String) (dest : FilePath)
    (hdest : (match destination with
        | some d => env.expandPathFn d
        | none => (parentOf p).getD []) = dest)
    (hdir : fs.isDir p = true)
    (hstem : fileStemOf p = some stem)
    (hnosrc : fs.lookup p = none)
    (harch : fs.isDir (dest ++ [stem ++ ".zip"]) = false) :
    (archiveExec env destination true p fs).1 = .error .isDirectory
    ∧ (archiveExec env destination true p fs).2.isDir p = true
    ∧ ((archiveExec env destination true p fs).2.lookup
        (dest ++ [stem ++ ".zip"])).isSome = true
    ∧ ∀ q c0, fs.lookup q = some c0 → q ≠ dest ++ [stem ++ ".zip"] →
        (archiveExec env destination true p fs).2.lookup q = some c0 := by
  have hne : p ≠ dest ++ [stem ++ ".zip"] := by
    intro hh
    rw [hh] at hdir
    rw [hdir] at harch
    cases harch
  have hfs1dir :
      (fs.setFile (dest ++ [stem ++ ".zip"]) ⟨0, some 0, ""⟩).isDir p = true :=
    hdir
  obtain ⟨content, hz⟩ : ∃ ct,
      zipContent (fs.setFile (dest ++ [stem ++ ".zip"]) ⟨0, some 0, ""⟩) p =
        .ok ct :=
    ⟨_, by unfold zipContent; rw [if_pos hfs1dir]⟩
  have hlookp2 :
      ((fs.setFile (dest ++ [stem ++ ".zip"]) ⟨0, some 0, ""⟩).setFile
        (dest ++ [stem ++ ".zip"])
        ⟨content.length, some 0, content⟩).lookup p = none := by
    rw [Fs.lookup_setFile, if_neg hne, Fs.lookup_setFile, if_neg hne]
    exact hnosrc
  have hrm : fsRemoveFile
      ((fs.setFile (dest ++ [stem ++ ".zip"]) ⟨0, some 0, ""⟩).setFile
        (dest ++ [stem ++ ".zip"]) ⟨content.length, some 0, content⟩) p =
      .error .isDirectory := by
    unfold fsRemoveFile
    rw [hlookp2]
    rw [if_neg (by simp)]
    have hd2 : ((fs.setFile (dest ++ [stem ++ ".zip"]) ⟨0, some 0, ""⟩).setFile
        (dest ++ [stem ++ ".zip"])
        ⟨content.length, some 0, content⟩).isDir p = true := hdir
    rw [if_pos hd2]
  have hres : archiveExec env destination true p fs =
      (.error .isDirectory,
       (fs.setFile (dest ++ [stem ++ ".zip"]) ⟨0, some 0, ""⟩).setFile
         (dest ++ [stem ++ ".zip"]) ⟨content.length, some 0, content⟩) := by
    simp only [archiveExec, hdest, hstem, harch, Bool.false_eq_true, if_false,
      hz, hrm, if_true]
  rw [hres]
  refine ⟨rfl, hdir, ?_, ?_⟩
  · rw [Fs.lookup_setFile, if_pos rfl]
    rfl
  · intro q c0 hq hqne
    rw [Fs.lookup_setFile, if_neg hqne, Fs.lookup_setFile, if_neg hqne]
    exact hq

/-- Witness for C10: the directory `/d` (containing `/d/x.txt`) archived
to its parent with `delete_original = true`. -/
theorem archive_dir_delete_original_fails_witness :
    ((⟨[(["d", "x.txt"], ⟨1, some 0, "x"⟩)], [["d"]]⟩ : Fs).isDir ["d"] = true) ∧
    ((archiveExec defaultEnv none true ["d"]
        ⟨[(["d", "x.txt"], ⟨1, some 0, "x"⟩)], [["d"]]⟩).1 =
      .error .isDirectory
     ∧ (archiveExec defaultEnv none true ["d"]
        ⟨[(["d", "x.txt"], ⟨1, some 0, "x"⟩)], [["d"]]⟩).2.isDir ["d"] = true
     ∧ ((archiveExec defaultEnv none true ["d"]
        ⟨[(["d", "x.txt"], ⟨1, some 0, "x"⟩)], [["d"]]⟩).2.lookup
          ([] ++ ["d" ++ ".zip"])).isSome = true
     ∧ ∀ q c0,
        (⟨[(["d", "x.txt"], ⟨1, some 0, "x"⟩)], [["d"]]⟩ : Fs).lookup q =
          some c0 →
        q ≠ [] ++ ["d" ++ ".zip"] →
        (archiveExec defaultEnv none true ["d"]
          ⟨[(["d", "x.txt"], ⟨1, some 0, "x"⟩)], [["d"]]⟩).2.lookup q =
          some c0) :=
  ⟨rfl, archive_dir_delete_original_fails defaultEnv none ["d"]
    ⟨[(["d", "x.txt"], ⟨1, some 0, "x"⟩)], [["d"]]⟩ "d" [] rfl rfl rfl rfl rfl⟩

/-! ## Claim C1 — the SIGHUP reload and the files-processed counter -/

/-- C1 (code bug): the successful SIGHUP reload branch always installs a
watcher whose `files_processed` counter is zero — for every environment,
every old watcher state and every reloaded configuration — because it
never calls `carry_over_files_processed`; concretely, a daemon that had
processed 5 files reports 0 immediately after a reload in which no new
files were processed, while the never-invoked
`Watcher::carry_over_files_processed` would have preserved the 5. -/
theorem sighup_reload_zeroes_files_processed :
    (∀ (env : Env) (old : Watcher) (cfg : Config),
        (sighupReload env old cfg).files_processed = 0)
    ∧ (sighupReload defaultEnv
        { engine := [], event_handler := ⟨[], 2⟩, watch_rules := [],
          canonical_cache := [], files_processed := 5 }
        { rules := [],
          watches := [{ path := ["w"], recursive := true, rules := [] }],
          debounce_seconds := 2 }).files_processed = 0
    ∧ (Watcher.carryOverFilesProcessed
        (sighupReload defaultEnv
          { engine := [], event_handler := ⟨[], 2⟩, watch_rules := [],
            canonical_cache := [], files_processed := 5 }
          { rules := [],
            watches := [{ path := ["w"], recursive := true, rules := [] }],
            debounce_seconds := 2 })
        { engine := [], event_handler := ⟨[], 2⟩, watch_rules := [],
          canonical_cache := [], files_processed := 5 }).files_processed = 5 := by
  refine ⟨?_, rfl, rfl⟩
  intro env old cfg
  unfold sighupReload
  have hfold : ∀ (ws : List WatchConfig) (w : Watcher),
      (ws.foldl (fun w wc => Watcher.watchWithRules env w
        (env.expandPathFn wc.path) wc.recursive wc.rules) w).files_processed =
      w.files_processed := by
    intro ws
    induction ws with
    | nil => intro w; rfl
    | cons wc rest ih => intro w; rw [List.foldl_cons, ih]; rfl
  rw [hfold]
  rfl

end Hazelnut
